import Mathlib

/-!
# Verification of the graph runtime (`src/runtime.ts`)

Shallow embedding of the WASM graph runtime: graph loading, Kahn topological
sort, last-dependency input resolution, and the sequential execution loop.
Machine maps (`Map<string, _>`, insertion ordered) are modelled as association
lists; JavaScript numbers used as counters are modelled as `Int`; fallible
code returns `Except RtError`.
-/

/-- Structured data produced by `JSON.parse`: the decoded payload of the graph
description file. -/
inductive Json where
  | null : Json
  | bool (b : Bool) : Json
  | num (n : Int) : Json
  | str (s : String) : Json
  | arr (elems : List Json) : Json
  | obj (fields : List (String × Json)) : Json
deriving Repr

/-- Key lookup among the decoded fields of a JSON object. -/
def jsonLookup : List (String × Json) → String → Option Json
  | [], _ => none
  | (k', v) :: rest, k => if k' = k then some v else jsonLookup rest k

/-- JavaScript property access `j[k]` on a decoded value: defined (`some`) only
when `j` is an object carrying the key. On non-objects the access yields
`undefined`, modelled as `none`. -/
def Json.get : Json → String → Option Json
  | .obj fields, k => jsonLookup fields k
  | _, _ => none

/-- `interface NodeSpec` (runtime.ts lines 5-9).  The optional `dependsOn?`
field is read in the source only through `node.dependsOn ?? []`, so it is
embedded with the default already applied. -/
structure NodeSpec where
  id : String
  wasm : String
  dependsOn : List String
deriving Repr, DecidableEq

/-- `interface ExecutionRecord` (runtime.ts lines 15-19). -/
structure ExecutionRecord where
  input : Int
  output : Int
  dependencies : List String
deriving Repr, DecidableEq

/-- A loaded-and-instantiated WASM module: `main` is the exported entry point,
`none` when the export is absent or not a function. A module's behaviour is an
opaque pure function on scalars, as the spec treats it. -/
structure WasmModule where
  main : Option (Int → Int)

/-- The environment of loadable modules: `none` at a path models a file that
cannot be read or instantiated. -/
abbrev ModuleEnv := String → Option WasmModule

/-- The abstract error taxonomy.  Each constructor corresponds to one `throw`
site of the source (or, for `malformedGraph`, to the load-stage failures the
spec groups under that name).  `outOfFuel` is an artifact of embedding the
source's `while` loop with fuel; it is proved unreachable
(`sortLoop_no_outOfFuel`). -/
inductive RtError where
  | malformedGraph : RtError
  | duplicateNode (id : String) : RtError
  | unknownDependency (nodeId depId : String) : RtError
  | cyclicGraph : RtError
  | sortMissingNode (id : String) : RtError
  | negativeIndegree (id : String) : RtError
  | missingUpstreamState (depId : String) : RtError
  | moduleLoadFailure (wasmPath : String) : RtError
  | missingEntryPoint (nodeId : String) : RtError
  | outOfFuel : RtError
deriving Repr, DecidableEq

/-- Insertion-ordered map (JavaScript `Map`) as an association list. -/
abbrev SMap (α : Type) := List (String × α)

/-- `Map.get`: the value at the first (hence, with unique keys, only)
occurrence of the key. -/
def mapGet {α : Type} : SMap α → String → Option α
  | [], _ => none
  | (k', v) :: rest, k => if k' = k then some v else mapGet rest k

/-- `Map.get(k) ?? d`. -/
def mapGetD {α : Type} (m : SMap α) (k : String) (d : α) : α :=
  (mapGet m k).getD d

/-- `Map.has`. -/
def mapHas {α : Type} (m : SMap α) (k : String) : Bool :=
  (mapGet m k).isSome

/-- `Map.set`: overwrite in place when the key is present (keeping its
position, as a JavaScript `Map` does), append otherwise. -/
def mapSet {α : Type} : SMap α → String → α → SMap α
  | [], k, v => [(k, v)]
  | (k', v') :: rest, k, v =>
    if k' = k then (k, v) :: rest else (k', v') :: mapSet rest k v

/-- `loadGraph` (runtime.ts lines 24-31).  The payload argument is the result
of `JSON.parse`: `none` when the text cannot be decoded.  Every failure of the
load stage (undecodable payload, the explicit `nodes` check, and the
`TypeError` raised by `spec.nodes` on a `null` payload) aborts the run; the
spec's taxonomy groups them all as `MalformedGraph`. -/
def loadGraph (payload : Option Json) : Except RtError Json :=
  match payload with
  | none => .error .malformedGraph
  | some spec =>
    match spec.get "nodes" with
    | some (Json.arr _) => .ok spec
    | _ => .error .malformedGraph

/-- The property access `node.wasm` performed by `executeNode` (runtime.ts
line 118) on a JSON-derived node object: the module location is read from the
key named `wasm`. -/
def nodeWasm (node : Json) : Option Json :=
  node.get "wasm"

/-- `path.resolve(baseDir, p)` for the cases exercised by the runtime: an
absolute path stands alone, a relative one is joined to the base directory. -/
def pathResolve (base p : String) : String :=
  if p.data.head? = some '/' then p else base ++ "/" ++ p

/-- Split a character list at every slash. -/
def splitSlash : List Char → List (List Char)
  | [] => [[]]
  | c :: rest =>
    if c = '/' then [] :: splitSlash rest
    else
      match splitSlash rest with
      | [] => [[c]]
      | g :: gs => (c :: g) :: gs

/-- `path.dirname` for ordinary slash-separated paths: everything before the
final separator, `"."` when there is none. -/
def pathDirname (p : String) : String :=
  let parts := splitSlash p.data
  if parts.length ≤ 1 then "."
  else String.mk (List.intercalate ['/'] parts.dropLast)

/-- First pass of `topoSort` (runtime.ts lines 41-48): reject duplicate ids
and initialise `byId`, `inDegree` and `adjacency`. -/
def initMaps : List NodeSpec → SMap NodeSpec → SMap Int → SMap (List String) →
    Except RtError (SMap NodeSpec × SMap Int × SMap (List String))
  | [], byId, inDeg, adj => .ok (byId, inDeg, adj)
  | n :: rest, byId, inDeg, adj =>
    if mapHas byId n.id then .error (.duplicateNode n.id)
    else initMaps rest (mapSet byId n.id n) (mapSet inDeg n.id 0) (mapSet adj n.id [])

/-- `adjacency.get(dep)?.push(node.id)` (runtime.ts line 56): append to the
adjacency list when the key exists, silently skip otherwise. -/
def pushAdj (adj : SMap (List String)) (dep v : String) : SMap (List String) :=
  match mapGet adj dep with
  | none => adj
  | some l => mapSet adj dep (l ++ [v])

/-- Inner loop of the second pass of `topoSort` (runtime.ts lines 51-57): for
each declared dependency of node `n`, check it exists, bump `n`'s in-degree
and record the reverse edge. -/
def addNodeEdges (byId : SMap NodeSpec) (n : NodeSpec) :
    List String → SMap Int → SMap (List String) →
    Except RtError (SMap Int × SMap (List String))
  | [], inDeg, adj => .ok (inDeg, adj)
  | d :: ds, inDeg, adj =>
    if mapHas byId d then
      addNodeEdges byId n ds
        (mapSet inDeg n.id (mapGetD inDeg n.id 0 + 1))
        (pushAdj adj d n.id)
    else .error (.unknownDependency n.id d)

/-- Second pass of `topoSort` (runtime.ts lines 50-58). -/
def addEdges (byId : SMap NodeSpec) :
    List NodeSpec → SMap Int → SMap (List String) →
    Except RtError (SMap Int × SMap (List String))
  | [], inDeg, adj => .ok (inDeg, adj)
  | n :: rest, inDeg, adj =>
    match addNodeEdges byId n n.dependsOn inDeg adj with
    | .error e => .error e
    | .ok (inDeg', adj') => addEdges byId rest inDeg' adj'

/-- Queue seeding (runtime.ts lines 60-65): all ids of in-degree zero, in map
insertion order (= declaration order). -/
def seedQueue (inDeg : SMap Int) : List String :=
  (inDeg.filter (fun p => p.2 == 0)).map Prod.fst

/-- Neighbour scan for one dequeued node (runtime.ts lines 76-85): decrement
each dependent's in-degree, fail defensively on a negative value, enqueue
dependents that reach zero. -/
def processNeighbors : SMap Int → List String → List String →
    Except RtError (SMap Int × List String)
  | inDeg, queue, [] => .ok (inDeg, queue)
  | inDeg, queue, nb :: rest =>
    let nextDegree : Int := mapGetD inDeg nb 0 - 1
    if nextDegree < 0 then .error (.negativeIndegree nb)
    else
      processNeighbors (mapSet inDeg nb nextDegree)
        (if nextDegree = 0 then queue ++ [nb] else queue) rest

/-- The `while (queue.length > 0)` loop of `topoSort` (runtime.ts lines
68-86), embedded with explicit fuel.  `topoSort` supplies fuel strictly above
`queue.length + degSum inDeg`, an upper bound on the number of iterations, so
the `outOfFuel` branch is unreachable (`sortLoop_no_outOfFuel`). -/
def sortLoop (byId : SMap NodeSpec) (adj : SMap (List String)) :
    Nat → SMap Int → List String → List NodeSpec → Except RtError (List NodeSpec)
  | _, _, [], result => .ok result
  | 0, _, _ :: _, _ => .error .outOfFuel
  | fuel + 1, inDeg, id :: queue, result =>
    match mapGet byId id with
    | none => .error (.sortMissingNode id)
    | some node =>
      match processNeighbors inDeg queue (mapGetD adj id []) with
      | .error e => .error e
      | .ok (inDeg', queue') => sortLoop byId adj fuel inDeg' queue' (result ++ [node])

/-- Total in-degree mass: bounds the number of loop iterations. -/
def degSum (inDeg : SMap Int) : Nat :=
  (inDeg.map (fun p => p.2.toNat)).sum

/-- `topoSort` (runtime.ts lines 36-93): duplicate check and map building,
edge pass, Kahn traversal, and the final cycle check. -/
def topoSort (nodes : List NodeSpec) : Except RtError (List NodeSpec) :=
  match initMaps nodes [] [] [] with
  | .error e => .error e
  | .ok (byId, inDeg0, adj0) =>
    match addEdges byId nodes inDeg0 adj0 with
    | .error e => .error e
    | .ok (inDeg, adj) =>
      let queue := seedQueue inDeg
      match sortLoop byId adj (queue.length + degSum inDeg + 1) inDeg queue [] with
      | .error e => .error e
      | .ok result =>
        if result.length = nodes.length then .ok result else .error .cyclicGraph

/-- `resolveInput` (runtime.ts lines 101-112): `0` for a node without
dependencies, otherwise the recorded output of the last-declared dependency. -/
def resolveInput (node : NodeSpec) (state : SMap ExecutionRecord) : Except RtError Int :=
  match node.dependsOn.getLast? with
  | none => .ok 0
  | some lastDependency =>
    match mapGet state lastDependency with
    | none => .error (.missingUpstreamState lastDependency)
    | some record => .ok record.output

/-- `executeNode` (runtime.ts lines 117-132): resolve the module path against
the base directory, load and instantiate the module, locate the `main`
export, resolve the input, invoke, and record the result. -/
def executeNode (modules : ModuleEnv) (baseDir : String) (node : NodeSpec)
    (state : SMap ExecutionRecord) : Except RtError (SMap ExecutionRecord) :=
  let wasmPath := pathResolve baseDir node.wasm
  match modules wasmPath with
  | none => .error (.moduleLoadFailure wasmPath)
  | some m =>
    match m.main with
    | none => .error (.missingEntryPoint node.id)
    | some entry =>
      match resolveInput node state with
      | .error e => .error e
      | .ok input =>
        .ok (mapSet state node.id ⟨input, entry input, node.dependsOn⟩)

/-- The `for (const node of ordered)` loop of `runGraph` (runtime.ts lines
143-145): strictly sequential, aborting at the first failure. -/
def runNodes (modules : ModuleEnv) (baseDir : String) :
    List NodeSpec → SMap ExecutionRecord → Except RtError (SMap ExecutionRecord)
  | [], state => .ok state
  | n :: rest, state =>
    match executeNode modules baseDir n state with
    | .error e => .error e
    | .ok state' => runNodes modules baseDir rest state'

/-- The run pipeline from a validated node list: resolve the order, then
execute every node in it starting from the empty state. -/
def runGraphNodes (modules : ModuleEnv) (baseDir : String) (nodes : List NodeSpec) :
    Except RtError (SMap ExecutionRecord) :=
  match topoSort nodes with
  | .error e => .error e
  | .ok ordered => runNodes modules baseDir ordered []

/-- `runGraph` (runtime.ts lines 137-148): load the spec, sort, and execute
with the graph file's directory as module base.  The source casts the decoded
JSON to `GraphSpec` without any per-node validation; that unchecked cast is
abstracted as the `toNodes` projection. -/
def runGraph (modules : ModuleEnv) (toNodes : Json → List NodeSpec)
    (payload : Option Json) (graphPath : String) : Except RtError (SMap ExecutionRecord) :=
  match loadGraph payload with
  | .error e => .error e
  | .ok spec =>
    match topoSort (toNodes spec) with
    | .error e => .error e
    | .ok ordered => runNodes modules (pathDirname graphPath) ordered []

/-- The dependency edge relation of a node list: `depEdge nodes u v` holds
when the node with id `v` declares `u` in its `dependsOn`. -/
def depEdge (nodes : List NodeSpec) (u v : String) : Prop :=
  ∃ n ∈ nodes, n.id = v ∧ u ∈ n.dependsOn

/-- `depsClosed done l`: scanning `l` left to right, every node's declared
dependencies already appear among `done` and the ids of earlier nodes of `l`;
this is the topological-order property of an execution order. -/
def depsClosed (done : List String) : List NodeSpec → Prop
  | [] => True
  | n :: rest => (∀ d ∈ n.dependsOn, d ∈ done) ∧ depsClosed (done ++ [n.id]) rest

/-! ## Graph bookkeeping -/

/-- Dependencies of `n` (with multiplicity) whose target has not yet been
processed; `P` is the list of processed ids. -/
def remaining (P : List String) (n : NodeSpec) : Nat :=
  n.dependsOn.countP (fun d => decide (d ∉ P))

/-- Invariant of the Kahn traversal loop (`sortLoop`), stated at iteration
boundaries.  `result.map NodeSpec.id` is the list of processed ids. -/
structure SortInv (nodes : List NodeSpec) (inDeg : SMap Int)
    (queue : List String) (result : List NodeSpec) : Prop where
  keysDeg : inDeg.map Prod.fst = nodes.map NodeSpec.id
  resSub : ∀ r ∈ result, r ∈ nodes
  nodups : (result.map NodeSpec.id ++ queue).Nodup
  qids : ∀ v ∈ queue, v ∈ nodes.map NodeSpec.id
  deg : ∀ n ∈ nodes, mapGetD inDeg n.id 0 = (remaining (result.map NodeSpec.id) n : Int)
  qready : ∀ v ∈ queue, ∀ n ∈ nodes, n.id = v →
    ∀ d ∈ n.dependsOn, d ∈ result.map NodeSpec.id
  ordered : depsClosed [] result

/-- Closed form of the adjacency entry `addEdges` builds for `u`: its
dependents, one occurrence per time `u` is listed in their `dependsOn`,
in declaration order. -/
def adjList (nodes : List NodeSpec) (u : String) : List String :=
  (nodes.map (fun n => List.replicate (n.dependsOn.count u) n.id)).join

/-! ## Association-map lemmas -/

theorem mapGet_eq_none {α : Type} {m : SMap α} {k : String} :
    mapGet m k = none ↔ k ∉ m.map Prod.fst := by
  induction m with
  | nil => simp [mapGet]
  | cons p rest ih =>
    obtain ⟨k', v⟩ := p
    by_cases h : k' = k
    · subst h
      simp [mapGet]
    · have h' : ¬k = k' := fun hh => h hh.symm
      simp [mapGet, h, h', ih]

theorem mapGet_isSome {α : Type} {m : SMap α} {k : String} :
    (mapGet m k).isSome = true ↔ k ∈ m.map Prod.fst := by
  rcases h : mapGet m k with _ | v
  · simpa [h] using mapGet_eq_none.mp h
  · simp only [Option.isSome_some, true_iff]
    by_contra hk
    rw [mapGet_eq_none.mpr hk] at h
    exact Option.noConfusion h

theorem mapGet_mem {α : Type} {m : SMap α} {k : String} {v : α}
    (h : mapGet m k = some v) : (k, v) ∈ m := by
  induction m with
  | nil => exact absurd h (by simp [mapGet])
  | cons p rest ih =>
    obtain ⟨k', v'⟩ := p
    by_cases hk : k' = k
    · simp [mapGet, hk] at h
      simp [hk, h]
    · simp [mapGet, hk] at h
      exact List.mem_cons_of_mem _ (ih h)

theorem mapGet_set_self {α : Type} {m : SMap α} {k : String} {v : α} :
    mapGet (mapSet m k v) k = some v := by
  induction m with
  | nil => simp [mapSet, mapGet]
  | cons p rest ih =>
    obtain ⟨k', v'⟩ := p
    by_cases h : k' = k <;> simp [mapSet, mapGet, h, ih]

theorem mapGet_set_ne {α : Type} {m : SMap α} {k k' : String} {v : α}
    (h : k' ≠ k) : mapGet (mapSet m k v) k' = mapGet m k' := by
  have h' : ¬k = k' := fun hh => h hh.symm
  induction m with
  | nil => simp [mapSet, mapGet, h']
  | cons p rest ih =>
    obtain ⟨k'', v''⟩ := p
    by_cases hk : k'' = k
    · subst hk
      simp [mapSet, mapGet, h']
    · simp [mapSet, hk, mapGet, ih]

theorem mapSet_keys_of_mem {α : Type} {m : SMap α} {k : String} {v : α}
    (h : k ∈ m.map Prod.fst) : (mapSet m k v).map Prod.fst = m.map Prod.fst := by
  induction m with
  | nil => simp at h
  | cons p rest ih =>
    obtain ⟨k', v'⟩ := p
    by_cases hk : k' = k
    · simp [mapSet, hk]
    · have hmem : k ∈ rest.map Prod.fst := by
        simp only [List.map_cons] at h
        rcases List.mem_cons.mp h with h1 | h1
        · exact absurd h1.symm hk
        · exact h1
      simp [mapSet, hk, ih hmem]

theorem mapSet_of_not_mem {α : Type} {m : SMap α} {k : String} {v : α}
    (h : k ∉ m.map Prod.fst) : mapSet m k v = m ++ [(k, v)] := by
  induction m with
  | nil => simp [mapSet]
  | cons p rest ih =>
    obtain ⟨k', v'⟩ := p
    simp only [List.map_cons, List.mem_cons] at h
    push_neg at h
    have hne : ¬k' = k := fun hh => h.1 hh.symm
    simp [mapSet, hne, ih h.2]

theorem degSum_mapSet {m : SMap Int} {k : String} {d v : Int}
    (h : mapGet m k = some d) : degSum (mapSet m k v) + d.toNat = degSum m + v.toNat := by
  induction m with
  | nil => exact absurd h (by simp [mapGet])
  | cons p rest ih =>
    obtain ⟨k', v'⟩ := p
    by_cases hk : k' = k
    · simp [mapGet, hk] at h
      subst h
      simp [mapSet, hk, degSum]
      omega
    · simp [mapGet, hk] at h
      have := ih h
      simp [mapSet, hk, degSum] at this ⊢
      omega

theorem smap_ext {α : Type} : ∀ {m m' : SMap α}, m.map Prod.fst = m'.map Prod.fst →
    (∀ k, mapGet m k = mapGet m' k) → (m.map Prod.fst).Nodup → m = m' := by
  intro m
  induction m with
  | nil =>
    intro m' hkeys _ _
    cases m' with
    | nil => rfl
    | cons p rest => simp at hkeys
  | cons p rest ih =>
    intro m' hkeys hget hnd
    obtain ⟨k, v⟩ := p
    cases m' with
    | nil => simp at hkeys
    | cons p' rest' =>
      obtain ⟨k', v'⟩ := p'
      simp only [List.map_cons, List.cons.injEq] at hkeys
      obtain ⟨hk, hrest⟩ := hkeys
      subst hk
      have hv : some v = some v' := by
        have := hget k
        simpa [mapGet] using this
      have hvv : v = v' := by injection hv
      subst hvv
      simp only [List.map_cons, List.nodup_cons] at hnd
      refine congrArg _ (ih hrest (fun k2 => ?_) hnd.2)
      by_cases hk2 : k = k2
      · subst hk2
        rw [mapGet_eq_none.mpr hnd.1, mapGet_eq_none.mpr (hrest ▸ hnd.1)]
      · have := hget k2
        simpa [mapGet, hk2] using this

theorem mapGet_map_key {α : Type} (key : α → String) :
    ∀ {l : List α} {k : String} {x : α},
    mapGet (l.map fun a => (key a, a)) k = some x → x ∈ l ∧ key x = k := by
  intro l
  induction l with
  | nil => intro k x h; exact absurd h (by simp [mapGet])
  | cons a rest ih =>
    intro k x h
    by_cases hk : key a = k
    · simp [mapGet, hk] at h
      subst h
      exact ⟨List.mem_cons_self _ _, hk⟩
    · simp [mapGet, hk] at h
      obtain ⟨hmem, hkey⟩ := ih h
      exact ⟨List.mem_cons_of_mem _ hmem, hkey⟩

theorem mapGet_map_key_of_mem {α : Type} (key : α → String) :
    ∀ {l : List α} {x : α}, (l.map key).Nodup → x ∈ l →
    mapGet (l.map fun a => (key a, a)) (key x) = some x := by
  intro l
  induction l with
  | nil => intro x _ h; simp at h
  | cons a rest ih =>
    intro x hnd hx
    simp only [List.map_cons, List.nodup_cons] at hnd
    rcases List.mem_cons.mp hx with h | h
    · subst h
      simp [mapGet]
    · have hne : key a ≠ key x := fun hh => hnd.1 (hh ▸ List.mem_map_of_mem key h)
      simp [mapGet, hne]
      exact ih hnd.2 h

/-- The three-node graph of the end-to-end scenario. -/
def demoNodes : List NodeSpec :=
  [ ⟨"fetchUser", "fetch_user.wasm", []⟩,
    ⟨"calcDiscount", "calc_discount.wasm", ["fetchUser"]⟩,
    ⟨"renderProfile", "render_profile.wasm", ["calcDiscount"]⟩ ]

/-- Module environment of the end-to-end scenario: `fetchUser` ignores its
input and returns 1001, `calcDiscount` returns `input * 2 - 1`,
`renderProfile` returns `input * 2`. -/
def demoModules : ModuleEnv := fun p =>
  if p = pathResolve "." "fetch_user.wasm" then some ⟨some (fun _ => 1001)⟩
  else if p = pathResolve "." "calc_discount.wasm" then some ⟨some (fun x => x * 2 - 1)⟩
  else if p = pathResolve "." "render_profile.wasm" then some ⟨some (fun x => x * 2)⟩
  else none

/-- Expected final state of the end-to-end scenario. -/
def demoResult : SMap ExecutionRecord :=
  [("fetchUser", ⟨0, 1001, []⟩),
   ("calcDiscount", ⟨1001, 2001, ["fetchUser"]⟩),
   ("renderProfile", ⟨2001, 4002, ["calcDiscount"]⟩)]

/-- A two-node chain used as a concrete witness input. -/
def pairNodes : List NodeSpec :=
  [⟨"a", "a.wasm", []⟩, ⟨"b", "b.wasm", ["a"]⟩]

/-- A self-loop graph used as a concrete witness input. -/
def loopNodes : List NodeSpec :=
  [⟨"c", "c.wasm", ["c"]⟩]

/-- A graph with a dangling dependency, used as a concrete witness input. -/
def danglingNodes : List NodeSpec :=
  [⟨"a", "a.wasm", ["ghost"]⟩]

/-- A graph whose second node lists the same dependency twice, used as a
concrete witness input. -/
def dupDepNodes : List NodeSpec :=
  [⟨"a", "a.wasm", []⟩, ⟨"b", "b.wasm", ["a", "a"]⟩]

/-- A module environment defined at a single path. -/
def oneModuleEnv : ModuleEnv := fun p =>
  if p = "base/mod.wasm" then some ⟨some (fun x => x + 1)⟩ else none

/-- A module environment defined everywhere by the same module. -/
def constModuleEnv : ModuleEnv := fun _ => some ⟨some (fun x => x + 1)⟩

/-- A single node used to exercise module-path resolution. -/
def wNode : NodeSpec := ⟨"w", "mod.wasm", []⟩

/-! ## Graph bookkeeping lemmas -/

theorem adjList_mem {nodes : List NodeSpec} {u v : String}
    (h : v ∈ adjList nodes u) : ∃ n ∈ nodes, n.id = v ∧ u ∈ n.dependsOn := by
  simp only [adjList, List.mem_join, List.mem_map] at h
  obtain ⟨l, ⟨n, hn, rfl⟩, hv⟩ := h
  obtain ⟨hk, rfl⟩ := List.mem_replicate.mp hv
  refine ⟨n, hn, rfl, ?_⟩
  by_contra hu
  exact hk (List.count_eq_zero.mpr hu)

theorem adjList_count_of_not_mem {nodes : List NodeSpec} {u v : String}
    (h : v ∉ nodes.map NodeSpec.id) : (adjList nodes u).count v = 0 := by
  refine List.count_eq_zero.mpr fun hv => ?_
  obtain ⟨n, hn, rfl, _⟩ := adjList_mem hv
  exact h (List.mem_map_of_mem NodeSpec.id hn)

theorem adjList_count {nodes : List NodeSpec} {u : String} {m : NodeSpec}
    (hnd : (nodes.map NodeSpec.id).Nodup) (hm : m ∈ nodes) :
    (adjList nodes u).count m.id = m.dependsOn.count u := by
  induction nodes with
  | nil => simp at hm
  | cons n rest ih =>
    simp only [List.map_cons, List.nodup_cons] at hnd
    have hcons : adjList (n :: rest) u =
        List.replicate (n.dependsOn.count u) n.id ++ adjList rest u := by
      simp [adjList]
    rcases List.mem_cons.mp hm with h | h
    · subst h
      rw [hcons, List.count_append, List.count_replicate,
        adjList_count_of_not_mem hnd.1]
      simp
    · have hne : (n.id == m.id) = false := by
        have : n.id ≠ m.id := fun hh => hnd.1 (hh ▸ List.mem_map_of_mem NodeSpec.id h)
        simpa using this
      rw [hcons, List.count_append, List.count_replicate, hne, ih hnd.2 h]
      simp

/-! ## `processNeighbors` lemmas -/

theorem processNeighbors_error : ∀ (ns : List String) (inDeg : SMap Int)
    (queue : List String) {e : RtError},
    processNeighbors inDeg queue ns = .error e → ∃ x, e = .negativeIndegree x := by
  intro ns
  induction ns with
  | nil => intro inDeg queue e h; simp [processNeighbors] at h
  | cons nb rest ih =>
    intro inDeg queue e h
    simp only [processNeighbors] at h
    split at h
    · exact ⟨nb, (Except.error.inj h).symm⟩
    · exact ih _ _ h

theorem processNeighbors_measure : ∀ (ns : List String) (inDeg : SMap Int)
    (queue : List String) {inDeg' : SMap Int} {queue' : List String},
    processNeighbors inDeg queue ns = .ok (inDeg', queue') →
    queue'.length + degSum inDeg' ≤ queue.length + degSum inDeg := by
  intro ns
  induction ns with
  | nil =>
    intro inDeg queue inDeg' queue' h
    simp only [processNeighbors, Except.ok.injEq, Prod.mk.injEq] at h
    simp [h.1, h.2]
  | cons nb rest ih =>
    intro inDeg queue inDeg' queue' h
    simp only [processNeighbors] at h
    split at h
    · exact absurd h (by simp)
    · rename_i hge
      have hd1 : 1 ≤ mapGetD inDeg nb 0 := by omega
      have hsome : mapGet inDeg nb = some (mapGetD inDeg nb 0) := by
        rcases hmg : mapGet inDeg nb with _ | x
        · exfalso
          rw [mapGetD, hmg, Option.getD_none] at hd1
          omega
        · rw [mapGetD, hmg]; rfl
      have hdeg := degSum_mapSet (v := mapGetD inDeg nb 0 - 1) hsome
      have hrec := ih _ _ h
      have hql : (if mapGetD inDeg nb 0 - 1 = 0 then queue ++ [nb] else queue).length ≤
          queue.length + 1 := by
        split <;> simp
      omega

theorem processNeighbors_spec : ∀ (ns : List String) (inDeg : SMap Int)
    (queue : List String),
    (∀ s : String, (ns.count s : Int) ≤ mapGetD inDeg s 0) →
    ∃ (inDeg' : SMap Int) (newq : List String),
      processNeighbors inDeg queue ns = .ok (inDeg', queue ++ newq) ∧
      (∀ s, mapGetD inDeg' s 0 = mapGetD inDeg s 0 - ns.count s) ∧
      inDeg'.map Prod.fst = inDeg.map Prod.fst ∧
      newq.Nodup ∧
      (∀ s ∈ newq, s ∈ ns ∧ 0 < mapGetD inDeg s 0 ∧ mapGetD inDeg' s 0 = 0) := by
  intro ns
  induction ns with
  | nil =>
    intro inDeg queue _
    exact ⟨inDeg, [], by simp [processNeighbors], by simp, rfl, List.nodup_nil, by simp⟩
  | cons nb rest ih =>
    intro inDeg queue hcount
    have hnb1 : (1 : Int) ≤ mapGetD inDeg nb 0 := by
      have := hcount nb
      rw [List.count_cons_self] at this
      push_cast at this
      omega
    have hsome : mapGet inDeg nb = some (mapGetD inDeg nb 0) := by
      rcases hmg : mapGet inDeg nb with _ | x
      · exfalso
        rw [mapGetD, hmg, Option.getD_none] at hnb1
        omega
      · rw [mapGetD, hmg]; rfl
    have hnbkeys : nb ∈ inDeg.map Prod.fst :=
      mapGet_isSome.mp (by rw [hsome]; rfl)
    have hnneg : ¬(mapGetD inDeg nb 0 - 1 < 0) := by omega
    have hget1 : ∀ s, mapGetD (mapSet inDeg nb (mapGetD inDeg nb 0 - 1)) s 0 =
        if s = nb then mapGetD inDeg nb 0 - 1 else mapGetD inDeg s 0 := by
      intro s
      by_cases hs : s = nb
      · subst hs; simp [mapGetD, mapGet_set_self]
      · simp [mapGetD, mapGet_set_ne hs, hs]
    have hcount1 : ∀ s : String,
        (rest.count s : Int) ≤ mapGetD (mapSet inDeg nb (mapGetD inDeg nb 0 - 1)) s 0 := by
      intro s
      rw [hget1]
      by_cases hs : s = nb
      · subst hs
        have := hcount s
        rw [List.count_cons_self] at this
        push_cast at this
        simp only [if_pos rfl]
        omega
      · have := hcount s
        have hcc : List.count s (nb :: rest) = List.count s rest := by
          rw [List.count_cons]
          have hns : ¬nb = s := fun hh => hs hh.symm
          simp [hs, hns]
        rw [hcc] at this
        simp [hs, this]
    obtain ⟨inDeg', newq', hrun, hpt, hkeys, hnd, hmem⟩ :=
      ih (mapSet inDeg nb (mapGetD inDeg nb 0 - 1))
        (if mapGetD inDeg nb 0 - 1 = 0 then queue ++ [nb] else queue) hcount1
    refine ⟨inDeg', if mapGetD inDeg nb 0 - 1 = 0 then nb :: newq' else newq', ?_, ?_, ?_, ?_, ?_⟩
    · simp only [processNeighbors, if_neg hnneg]
      rw [hrun]
      by_cases hz : mapGetD inDeg nb 0 - 1 = 0 <;> simp [hz]
    · intro s
      rw [hpt s, hget1 s]
      by_cases hs : s = nb
      · subst hs
        rw [List.count_cons_self, if_pos rfl]
        push_cast
        omega
      · have hcc : List.count s (nb :: rest) = List.count s rest := by
          rw [List.count_cons]
          have hns : ¬nb = s := fun hh => hs hh.symm
          simp [hs, hns]
        rw [hcc, if_neg hs]
    · rw [hkeys, mapSet_keys_of_mem hnbkeys]
    · by_cases hz : mapGetD inDeg nb 0 - 1 = 0
      · rw [if_pos hz]
        refine List.nodup_cons.mpr ⟨fun hin => ?_, hnd⟩
        have := (hmem nb hin).2.1
        rw [hget1, if_pos rfl, hz] at this
        exact lt_irrefl 0 this
      · rw [if_neg hz]; exact hnd
    · intro s hs
      have hmain : s ∈ newq' → s ∈ nb :: rest ∧ 0 < mapGetD inDeg s 0 ∧
          mapGetD inDeg' s 0 = 0 := by
        intro hin
        obtain ⟨hr, hpos, hzero⟩ := hmem s hin
        refine ⟨List.mem_cons_of_mem _ hr, ?_, hzero⟩
        rw [hget1] at hpos
        by_cases hsnb : s = nb
        · subst hsnb
          omega
        · rwa [if_neg hsnb] at hpos
      by_cases hz : mapGetD inDeg nb 0 - 1 = 0
      · rw [if_pos hz] at hs
        rcases List.mem_cons.mp hs with h | h
        · subst h
          refine ⟨List.mem_cons_self _ _, by omega, ?_⟩
          rw [hpt, hget1, if_pos rfl, hz]
          have := hcount1 s
          rw [hget1, if_pos rfl, hz] at this
          have h0 : List.count s rest = 0 := by
            push_cast at this
            omega
          rw [h0]
          simp
        · exact hmain h
      · rw [if_neg hz] at hs
        exact hmain hs

/-! ## `depsClosed` and `remaining` lemmas -/

theorem depsClosed_append {l : List NodeSpec} : ∀ {done : List String} {n : NodeSpec},
    depsClosed done l → (∀ d ∈ n.dependsOn, d ∈ done ++ l.map NodeSpec.id) →
    depsClosed done (l ++ [n]) := by
  induction l with
  | nil =>
    intro done n _ h2
    exact ⟨by simpa using h2, trivial⟩
  | cons m rest ih =>
    intro done n h h2
    obtain ⟨h1, hrest⟩ := h
    refine ⟨h1, ih hrest ?_⟩
    intro d hd
    have := h2 d hd
    simp only [List.map_cons, List.mem_append, List.mem_cons, List.mem_singleton] at this ⊢
    tauto

theorem depsClosed_split : ∀ (l₁ : List NodeSpec) {done : List String} {n : NodeSpec}
    {l₂ : List NodeSpec}, depsClosed done (l₁ ++ n :: l₂) →
    ∀ d ∈ n.dependsOn, d ∈ done ++ l₁.map NodeSpec.id := by
  intro l₁
  induction l₁ with
  | nil =>
    intro done n l₂ h d hd
    simpa using h.1 d hd
  | cons m rest ih =>
    intro done n l₂ h d hd
    have := ih h.2 d hd
    simp only [List.map_cons, List.mem_append, List.mem_cons, List.mem_singleton] at this ⊢
    tauto

theorem depsClosed_mem {done : List String} {l : List NodeSpec} {m : NodeSpec}
    (h : depsClosed done l) (hm : m ∈ l) :
    ∀ d ∈ m.dependsOn, d ∈ done ++ l.map NodeSpec.id := by
  obtain ⟨l₁, l₂, rfl⟩ := List.append_of_mem hm
  intro d hd
  have := depsClosed_split l₁ h d hd
  simp only [List.mem_append] at this ⊢
  rcases this with h1 | h1
  · exact Or.inl h1
  · exact Or.inr (by simp [h1])

theorem remaining_eq_zero_iff {P : List String} {n : NodeSpec} :
    remaining P n = 0 ↔ ∀ d ∈ n.dependsOn, d ∈ P := by
  rw [remaining, List.countP_eq_zero]
  constructor
  · intro h d hd
    have := h d hd
    simpa using this
  · intro h d hd
    simpa using h d hd

theorem remaining_append_single {P : List String} {n : NodeSpec} {v : String}
    (hv : v ∉ P) :
    remaining P n = remaining (P ++ [v]) n + n.dependsOn.count v := by
  rw [remaining, remaining, List.count_eq_countP]
  induction n.dependsOn with
  | nil => simp
  | cons d ds ih =>
    rw [List.countP_cons, List.countP_cons, List.countP_cons, ih]
    generalize List.countP (fun x => decide (x ∉ P ++ [v])) ds = A
    generalize List.countP (fun x => x == v) ds = B
    by_cases hd : d = v
    · subst hd
      simp [hv]
      omega
    · by_cases hdp : d ∈ P <;> simp [hd, hdp] <;> omega

theorem remaining_nonneg_count {P : List String} {n : NodeSpec} {v : String}
    (hv : v ∉ P) : n.dependsOn.count v ≤ remaining P n := by
  rw [remaining, List.count_eq_countP]
  refine List.countP_mono_left fun x hx hxv => ?_
  have : x = v := by simpa using hxv
  subst this
  simpa using hv

/-! ## `sortLoop` lemmas -/

theorem sortLoop_no_outOfFuel (byId : SMap NodeSpec) (adj : SMap (List String)) :
    ∀ (fuel : Nat) (inDeg : SMap Int) (queue : List String) (result : List NodeSpec),
    queue.length + degSum inDeg < fuel →
    sortLoop byId adj fuel inDeg queue result ≠ .error .outOfFuel := by
  intro fuel
  induction fuel with
  | zero =>
    intro inDeg queue result h
    omega
  | succ f ih =>
    intro inDeg queue result h
    cases queue with
    | nil => simp [sortLoop]
    | cons id rest =>
      cases hby : mapGet byId id with
      | none => simp [sortLoop, hby]
      | some node =>
        cases hpn : processNeighbors inDeg rest (mapGetD adj id []) with
        | error e =>
          obtain ⟨x, rfl⟩ := processNeighbors_error _ _ _ hpn
          simp [sortLoop, hby, hpn]
        | ok pair =>
          obtain ⟨inDeg1, queue1⟩ := pair
          have hm := processNeighbors_measure _ _ _ hpn
          simp only [sortLoop, hby, hpn]
          refine ih inDeg1 queue1 (result ++ [node]) ?_
          simp only [List.length_cons] at h
          omega

theorem sortLoop_spec {nodes : List NodeSpec} {byId : SMap NodeSpec} {adj : SMap (List String)}
    (hnd : (nodes.map NodeSpec.id).Nodup)
    (hbyId : byId = nodes.map fun n => (n.id, n))
    (hadj : ∀ u, mapGetD adj u [] = adjList nodes u) :
    ∀ (fuel : Nat) (inDeg : SMap Int) (queue : List String) (result : List NodeSpec),
    SortInv nodes inDeg queue result →
    queue.length + degSum inDeg < fuel →
    ∃ (result' : List NodeSpec) (inDeg' : SMap Int),
      sortLoop byId adj fuel inDeg queue result = .ok result' ∧
      SortInv nodes inDeg' [] result' := by
  intro fuel
  induction fuel with
  | zero =>
    intro inDeg queue result _ h
    omega
  | succ f ih =>
    intro inDeg queue result inv h
    cases queue with
    | nil => exact ⟨result, inDeg, by simp [sortLoop], inv⟩
    | cons v rest =>
      have hvid : v ∈ nodes.map NodeSpec.id := inv.qids v (List.mem_cons_self _ _)
      obtain ⟨node, hnodemem, hnodeid⟩ := List.mem_map.mp hvid
      have hby : mapGet byId v = some node := by
        rw [hbyId, ← hnodeid]
        exact mapGet_map_key_of_mem NodeSpec.id hnd hnodemem
      have hvP : v ∉ result.map NodeSpec.id := by
        rcases List.nodup_append.mp inv.nodups with ⟨_, _, hdisj⟩
        exact fun hvp => hdisj hvp (List.mem_cons_self _ _)
      have hcount : ∀ s : String,
          ((adjList nodes v).count s : Int) ≤ mapGetD inDeg s 0 := by
        intro s
        by_cases hs : s ∈ nodes.map NodeSpec.id
        · obtain ⟨m, hm, hmid⟩ := List.mem_map.mp hs
          subst hmid
          rw [adjList_count hnd hm, inv.deg m hm]
          exact_mod_cast remaining_nonneg_count hvP
        · rw [adjList_count_of_not_mem hs]
          have hnone : mapGet inDeg s = none := by
            rw [mapGet_eq_none, inv.keysDeg]
            exact hs
          simp [mapGetD, hnone]
      obtain ⟨inDeg1, newq, hrun, hpt, hkeys, hnqnd, hnqmem⟩ :=
        processNeighbors_spec (adjList nodes v) inDeg rest hcount
      have hzero : ∀ y ∈ result.map NodeSpec.id ++ v :: rest, mapGetD inDeg y 0 = 0 := by
        intro y hy
        rcases List.mem_append.mp hy with hy | hy
        · obtain ⟨m, hm, hmid⟩ := List.mem_map.mp hy
          subst hmid
          rw [inv.deg m (inv.resSub m hm)]
          have hdeps := depsClosed_mem inv.ordered hm
          have hz : remaining (result.map NodeSpec.id) m = 0 :=
            remaining_eq_zero_iff.mpr (fun d hd => by simpa using hdeps d hd)
          simp [hz]
        · obtain ⟨m, hm, hmid⟩ := List.mem_map.mp (inv.qids y hy)
          subst hmid
          rw [inv.deg m hm]
          have hz : remaining (result.map NodeSpec.id) m = 0 :=
            remaining_eq_zero_iff.mpr (inv.qready m.id hy m hm rfl)
          simp [hz]
      have hnqids : ∀ s ∈ newq, s ∈ nodes.map NodeSpec.id := by
        intro s hsq
        obtain ⟨mm, hmm, hmmid, _⟩ := adjList_mem (hnqmem s hsq).1
        exact hmmid ▸ List.mem_map_of_mem NodeSpec.id hmm
      have hnqfresh : ∀ s ∈ result.map NodeSpec.id ++ v :: rest, s ∉ newq := by
        intro s hsy hsq
        have h0 := hzero s hsy
        have hpos := (hnqmem s hsq).2.1
        omega
      have hP' : (result ++ [node]).map NodeSpec.id = result.map NodeSpec.id ++ [v] := by
        simp [hnodeid]
      have degafter : ∀ m ∈ nodes, mapGetD inDeg1 m.id 0 =
          (remaining ((result ++ [node]).map NodeSpec.id) m : Int) := by
        intro m hm
        rw [hpt m.id, inv.deg m hm, adjList_count hnd hm, hP']
        have hras := remaining_append_single (n := m) hvP
        omega
      have inv' : SortInv nodes inDeg1 (rest ++ newq) (result ++ [node]) := by
        refine ⟨?_, ?_, ?_, ?_, ?_, ?_, ?_⟩
        · rw [hkeys, inv.keysDeg]
        · intro r hr
          rcases List.mem_append.mp hr with hr | hr
          · exact inv.resSub r hr
          · have hrn : r = node := by simpa using hr
            subst hrn
            exact hnodemem
        · rw [hP']
          have heq : (result.map NodeSpec.id ++ [v]) ++ (rest ++ newq) =
              (result.map NodeSpec.id ++ v :: rest) ++ newq := by
            simp
          rw [heq]
          exact List.nodup_append.mpr ⟨inv.nodups, hnqnd, hnqfresh⟩
        · intro s hs
          rcases List.mem_append.mp hs with hs | hs
          · exact inv.qids s (List.mem_cons_of_mem _ hs)
          · exact hnqids s hs
        · exact degafter
        · intro y hy m hm hmy d hd
          rcases List.mem_append.mp hy with hy | hy
          · have hmem := inv.qready y (List.mem_cons_of_mem _ hy) m hm hmy d hd
            rw [hP']
            exact List.mem_append_left _ hmem
          · have h0 : mapGetD inDeg1 m.id 0 = 0 := by
              rw [hmy]
              exact (hnqmem y hy).2.2
            rw [degafter m hm] at h0
            have hz : remaining ((result ++ [node]).map NodeSpec.id) m = 0 := by
              exact_mod_cast h0
            exact remaining_eq_zero_iff.mp hz d hd
        · refine depsClosed_append inv.ordered ?_
          intro d hd
          have hmem := inv.qready v (List.mem_cons_self _ _) node hnodemem hnodeid d hd
          simpa using hmem
      obtain ⟨result', inDeg', hloop, hinv'⟩ :=
        ih inDeg1 (rest ++ newq) (result ++ [node]) inv' (by
          simp only [List.length_cons] at h
          have hmeas := processNeighbors_measure _ _ _ hrun
          omega)
      refine ⟨result', inDeg', ?_, hinv'⟩
      simp only [sortLoop, hby, hadj v, hrun]
      exact hloop

/-! ## Build-phase lemmas -/

theorem initMaps_ok : ∀ (ns : List NodeSpec) (byId : SMap NodeSpec) (inDeg : SMap Int)
    (adj : SMap (List String)) {byId' : SMap NodeSpec} {inDeg' : SMap Int}
    {adj' : SMap (List String)},
    inDeg.map Prod.fst = byId.map Prod.fst →
    adj.map Prod.fst = byId.map Prod.fst →
    initMaps ns byId inDeg adj = .ok (byId', inDeg', adj') →
    (∀ n ∈ ns, n.id ∉ byId.map Prod.fst) ∧ (ns.map NodeSpec.id).Nodup ∧
    byId' = byId ++ ns.map (fun n => (n.id, n)) ∧
    inDeg' = inDeg ++ ns.map (fun n => (n.id, (0 : Int))) ∧
    adj' = adj ++ ns.map (fun n => (n.id, ([] : List String))) := by
  intro ns
  induction ns with
  | nil =>
    intro byId inDeg adj byId' inDeg' adj' _ _ h
    simp only [initMaps, Except.ok.injEq, Prod.mk.injEq] at h
    obtain ⟨h1, h2, h3⟩ := h
    subst h1; subst h2; subst h3
    simp
  | cons n rest ih =>
    intro byId inDeg adj byId' inDeg' adj' hkd hka h
    simp only [initMaps] at h
    split at h
    · exact absurd h (by simp)
    · rename_i hhas
      have hnotin : n.id ∉ byId.map Prod.fst := by
        intro hmem
        exact hhas (by rw [mapHas, mapGet_isSome]; exact hmem)
      have hkd2 : (mapSet inDeg n.id 0).map Prod.fst = (mapSet byId n.id n).map Prod.fst := by
        rw [mapSet_of_not_mem (hkd ▸ hnotin), mapSet_of_not_mem hnotin]
        simp [hkd]
      have hka2 : (mapSet adj n.id []).map Prod.fst = (mapSet byId n.id n).map Prod.fst := by
        rw [mapSet_of_not_mem (hka ▸ hnotin), mapSet_of_not_mem hnotin]
        simp [hka]
      obtain ⟨hfresh, hnd, hbyId, hinDeg, hadj⟩ := ih _ _ _ hkd2 hka2 h
      rw [mapSet_of_not_mem hnotin] at hbyId hfresh
      rw [mapSet_of_not_mem (hkd ▸ hnotin)] at hinDeg
      rw [mapSet_of_not_mem (hka ▸ hnotin)] at hadj
      refine ⟨?_, ?_, ?_, ?_, ?_⟩
      · intro m hm
        rcases List.mem_cons.mp hm with hm | hm
        · subst hm; exact hnotin
        · intro hmem
          exact (hfresh m hm) (by simp [hmem])
      · refine List.nodup_cons.mpr ⟨?_, hnd⟩
        intro hmem
        obtain ⟨m, hm, hmid⟩ := List.mem_map.mp hmem
        exact (hfresh m hm) (by simp [hmid])
      · rw [hbyId]; simp
      · rw [hinDeg]; simp
      · rw [hadj]; simp

theorem initMaps_complete : ∀ (ns : List NodeSpec) (byId : SMap NodeSpec) (inDeg : SMap Int)
    (adj : SMap (List String)),
    (∀ n ∈ ns, n.id ∉ byId.map Prod.fst) → (ns.map NodeSpec.id).Nodup →
    ∃ (byId' : SMap NodeSpec) (inDeg' : SMap Int) (adj' : SMap (List String)),
      initMaps ns byId inDeg adj = .ok (byId', inDeg', adj') := by
  intro ns
  induction ns with
  | nil =>
    intro byId inDeg adj _ _
    exact ⟨byId, inDeg, adj, rfl⟩
  | cons n rest ih =>
    intro byId inDeg adj hfresh hnd
    have hnotin : n.id ∉ byId.map Prod.fst := hfresh n (List.mem_cons_self _ _)
    have hhas : mapHas byId n.id = false := by
      rw [mapHas, mapGet_eq_none.mpr hnotin]
      rfl
    simp only [List.map_cons, List.nodup_cons] at hnd
    have hfresh2 : ∀ m ∈ rest, m.id ∉ (mapSet byId n.id n).map Prod.fst := by
      intro m hm
      rw [mapSet_of_not_mem hnotin]
      simp only [List.map_append, List.mem_append]
      rintro (hmem | hmem)
      · exact hfresh m (List.mem_cons_of_mem _ hm) hmem
      · have hmn : m.id = n.id := by simpa using hmem
        exact hnd.1 (hmn ▸ List.mem_map_of_mem NodeSpec.id hm)
    obtain ⟨byId', inDeg', adj', hrun⟩ :=
      ih (mapSet byId n.id n) (mapSet inDeg n.id 0) (mapSet adj n.id []) hfresh2 hnd.2
    refine ⟨byId', inDeg', adj', ?_⟩
    simp only [initMaps, hhas]
    simpa using hrun

/-! ## `pushAdj` lemmas -/

theorem pushAdj_keys (adj : SMap (List String)) (d v : String) :
    (pushAdj adj d v).map Prod.fst = adj.map Prod.fst := by
  rw [pushAdj]
  cases hg : mapGet adj d with
  | none => rfl
  | some l =>
    exact mapSet_keys_of_mem (mapGet_isSome.mp (by rw [hg]; rfl))

theorem mapGet_pushAdj_self (adj : SMap (List String)) (d v : String) :
    mapGet (pushAdj adj d v) d = (mapGet adj d).map (fun l => l ++ [v]) := by
  rw [pushAdj]
  cases hg : mapGet adj d with
  | none => simp [hg]
  | some l => simp [mapGet_set_self]

theorem mapGet_pushAdj_ne (adj : SMap (List String)) {u d : String} (v : String)
    (h : u ≠ d) : mapGet (pushAdj adj d v) u = mapGet adj u := by
  rw [pushAdj]
  cases hg : mapGet adj d with
  | none => rfl
  | some l => exact mapGet_set_ne h

/-! ## Edge-pass lemmas -/

theorem addNodeEdges_ok {byId : SMap NodeSpec} {n : NodeSpec} :
    ∀ (ds : List String) (inDeg : SMap Int) (adj : SMap (List String))
    {inDeg' : SMap Int} {adj' : SMap (List String)},
    n.id ∈ inDeg.map Prod.fst →
    addNodeEdges byId n ds inDeg adj = .ok (inDeg', adj') →
    (∀ d ∈ ds, mapHas byId d = true) ∧
    inDeg'.map Prod.fst = inDeg.map Prod.fst ∧
    adj'.map Prod.fst = adj.map Prod.fst ∧
    mapGetD inDeg' n.id 0 = mapGetD inDeg n.id 0 + ds.length ∧
    (∀ k, k ≠ n.id → mapGetD inDeg' k 0 = mapGetD inDeg k 0) ∧
    (∀ u, mapGet adj' u =
      (mapGet adj u).map (fun l => l ++ List.replicate (ds.count u) n.id)) := by
  intro ds
  induction ds with
  | nil =>
    intro inDeg adj inDeg' adj' _ h
    simp only [addNodeEdges, Except.ok.injEq, Prod.mk.injEq] at h
    obtain ⟨h1, h2⟩ := h
    subst h1; subst h2
    refine ⟨by simp, rfl, rfl, by simp, fun k _ => rfl, fun u => by simp⟩
  | cons d ds ih =>
    intro inDeg adj inDeg' adj' hkey h
    simp only [addNodeEdges] at h
    split at h
    · rename_i hhas
      have hkey1 : n.id ∈ (mapSet inDeg n.id (mapGetD inDeg n.id 0 + 1)).map Prod.fst := by
        rw [mapSet_keys_of_mem hkey]
        exact hkey
      obtain ⟨hvalid, hkd, hka, hself, hother, hadjpt⟩ := ih _ _ hkey1 h
      refine ⟨?_, ?_, ?_, ?_, ?_, ?_⟩
      · intro d' hd'
        rcases List.mem_cons.mp hd' with hd' | hd'
        · subst hd'; exact hhas
        · exact hvalid d' hd'
      · rw [hkd, mapSet_keys_of_mem hkey]
      · rw [hka, pushAdj_keys]
      · rw [hself]
        have : mapGetD (mapSet inDeg n.id (mapGetD inDeg n.id 0 + 1)) n.id 0 =
            mapGetD inDeg n.id 0 + 1 := by
          rw [mapGetD, mapGet_set_self]
          rfl
        rw [this]
        simp
        omega
      · intro k hk
        rw [hother k hk, mapGetD, mapGet_set_ne hk]
        rfl
      · intro u
        rw [hadjpt u]
        by_cases hu : u = d
        · subst hu
          rw [mapGet_pushAdj_self]
          cases mapGet adj u with
          | none => simp
          | some l =>
            simp [List.count_cons_self, List.replicate_succ, List.append_assoc]
        · rw [mapGet_pushAdj_ne _ _ hu]
          have hdu : ¬d = u := fun hh => hu hh.symm
          have hcc : List.count u (d :: ds) = List.count u ds := by
            rw [List.count_cons]
            simp [hu, hdu]
          rw [hcc]
    · exact absurd h (by simp)

theorem addNodeEdges_error_shape {byId : SMap NodeSpec} {n : NodeSpec} :
    ∀ (ds : List String) (inDeg : SMap Int) (adj : SMap (List String)) {e : RtError},
    addNodeEdges byId n ds inDeg adj = .error e →
    ∃ d, mapHas byId d = false ∧ e = .unknownDependency n.id d := by
  intro ds
  induction ds with
  | nil =>
    intro inDeg adj e h
    simp [addNodeEdges] at h
  | cons d ds ih =>
    intro inDeg adj e h
    simp only [addNodeEdges] at h
    split at h
    · exact ih _ _ h
    · rename_i hhas
      refine ⟨d, by simpa using hhas, (Except.error.inj h).symm⟩

theorem addNodeEdges_complete {byId : SMap NodeSpec} {n : NodeSpec} :
    ∀ (ds : List String) (inDeg : SMap Int) (adj : SMap (List String)),
    (∀ d ∈ ds, mapHas byId d = true) →
    ∃ (inDeg' : SMap Int) (adj' : SMap (List String)),
      addNodeEdges byId n ds inDeg adj = .ok (inDeg', adj') := by
  intro ds
  induction ds with
  | nil =>
    intro inDeg adj _
    exact ⟨inDeg, adj, rfl⟩
  | cons d ds ih =>
    intro inDeg adj hvalid
    have hhas : mapHas byId d = true := hvalid d (List.mem_cons_self _ _)
    obtain ⟨inDeg', adj', hrun⟩ :=
      ih (mapSet inDeg n.id (mapGetD inDeg n.id 0 + 1)) (pushAdj adj d n.id)
        (fun d' hd' => hvalid d' (List.mem_cons_of_mem _ hd'))
    exact ⟨inDeg', adj', by simp only [addNodeEdges, hhas, if_true]; exact hrun⟩

theorem addNodeEdges_ok_valid {byId : SMap NodeSpec} {n : NodeSpec} :
    ∀ (ds : List String) (inDeg : SMap Int) (adj : SMap (List String))
    {inDeg' : SMap Int} {adj' : SMap (List String)},
    addNodeEdges byId n ds inDeg adj = .ok (inDeg', adj') →
    ∀ d ∈ ds, mapHas byId d = true := by
  intro ds
  induction ds with
  | nil =>
    intro inDeg adj inDeg' adj' _ d hd
    simp at hd
  | cons d0 ds ih =>
    intro inDeg adj inDeg' adj' h d hd
    simp only [addNodeEdges] at h
    split at h
    · rename_i hhas
      rcases List.mem_cons.mp hd with hd | hd
      · subst hd; exact hhas
      · exact ih _ _ h d hd
    · exact absurd h (by simp)

theorem addEdges_ok {byId : SMap NodeSpec} : ∀ (ns : List NodeSpec) (inDeg : SMap Int)
    (adj : SMap (List String)) {inDeg' : SMap Int} {adj' : SMap (List String)},
    (ns.map NodeSpec.id).Nodup →
    (∀ n ∈ ns, n.id ∈ inDeg.map Prod.fst) →
    addEdges byId ns inDeg adj = .ok (inDeg', adj') →
    (∀ n ∈ ns, ∀ d ∈ n.dependsOn, mapHas byId d = true) ∧
    inDeg'.map Prod.fst = inDeg.map Prod.fst ∧
    adj'.map Prod.fst = adj.map Prod.fst ∧
    (∀ m ∈ ns, mapGetD inDeg' m.id 0 = mapGetD inDeg m.id 0 + m.dependsOn.length) ∧
    (∀ k, k ∉ ns.map NodeSpec.id → mapGetD inDeg' k 0 = mapGetD inDeg k 0) ∧
    (∀ u, mapGet adj' u = (mapGet adj u).map (fun l => l ++ adjList ns u)) := by
  intro ns
  induction ns with
  | nil =>
    intro inDeg adj inDeg' adj' _ _ h
    simp only [addEdges, Except.ok.injEq, Prod.mk.injEq] at h
    obtain ⟨h1, h2⟩ := h
    subst h1; subst h2
    refine ⟨by simp, rfl, rfl, by simp, fun k _ => rfl, fun u => ?_⟩
    cases mapGet adj u <;> simp [adjList]
  | cons n rest ih =>
    intro inDeg adj inDeg' adj' hnd hkeys h
    simp only [addEdges] at h
    split at h
    · exact absurd h (by simp)
    · rename_i i1 a1 haddn
      simp only [List.map_cons, List.nodup_cons] at hnd
      have hkeyn : n.id ∈ inDeg.map Prod.fst := hkeys n (List.mem_cons_self _ _)
      obtain ⟨hvalid1, hkd1, hka1, hself1, hother1, hadj1⟩ :=
        addNodeEdges_ok n.dependsOn inDeg adj hkeyn haddn
      have hkeys2 : ∀ m ∈ rest, m.id ∈ i1.map Prod.fst := by
        intro m hm
        rw [hkd1]
        exact hkeys m (List.mem_cons_of_mem _ hm)
      obtain ⟨hvalid2, hkd2, hka2, hdeg2, hunch2, hadj2⟩ := ih i1 a1 hnd.2 hkeys2 h
      refine ⟨?_, ?_, ?_, ?_, ?_, ?_⟩
      · intro m hm d hd
        rcases List.mem_cons.mp hm with hm | hm
        · subst hm; exact hvalid1 d hd
        · exact hvalid2 m hm d hd
      · rw [hkd2, hkd1]
      · rw [hka2, hka1]
      · intro m hm
        rcases List.mem_cons.mp hm with hm | hm
        · subst hm
          rw [hunch2 m.id hnd.1, hself1]
        · have hne : m.id ≠ n.id := by
            intro hh
            exact hnd.1 (hh ▸ List.mem_map_of_mem NodeSpec.id hm)
          rw [hdeg2 m hm, hother1 m.id hne]
      · intro k hk
        simp only [List.map_cons, List.mem_cons, not_or] at hk
        rw [hunch2 k hk.2, hother1 k hk.1]
      · intro u
        rw [hadj2 u, hadj1 u]
        have hconsadj : adjList (n :: rest) u =
            List.replicate (n.dependsOn.count u) n.id ++ adjList rest u := by
          simp [adjList]
        rw [hconsadj]
        cases mapGet adj u <;> simp

theorem addEdges_error {byId : SMap NodeSpec} : ∀ (ns : List NodeSpec) (inDeg : SMap Int)
    (adj : SMap (List String)),
    (∃ n ∈ ns, ∃ d ∈ n.dependsOn, mapHas byId d = false) →
    ∃ nid dep, addEdges byId ns inDeg adj = .error (.unknownDependency nid dep) := by
  intro ns
  induction ns with
  | nil =>
    intro inDeg adj h
    simp at h
  | cons n rest ih =>
    intro inDeg adj h
    cases haddn : addNodeEdges byId n n.dependsOn inDeg adj with
    | error e =>
      obtain ⟨d, _, rfl⟩ := addNodeEdges_error_shape n.dependsOn inDeg adj haddn
      exact ⟨n.id, d, by simp only [addEdges, haddn]⟩
    | ok pair =>
      obtain ⟨i1, a1⟩ := pair
      obtain ⟨m, hm, d, hd, hbad⟩ := h
      rcases List.mem_cons.mp hm with hm | hm
      · subst hm
        have := addNodeEdges_ok_valid m.dependsOn inDeg adj haddn d hd
        rw [this] at hbad
        exact absurd hbad (by simp)
      · obtain ⟨nid, dep, hrun⟩ := ih i1 a1 ⟨m, hm, d, hd, hbad⟩
        exact ⟨nid, dep, by simp only [addEdges, haddn]; exact hrun⟩

theorem addEdges_complete {byId : SMap NodeSpec} : ∀ (ns : List NodeSpec) (inDeg : SMap Int)
    (adj : SMap (List String)),
    (∀ n ∈ ns, ∀ d ∈ n.dependsOn, mapHas byId d = true) →
    ∃ (inDeg' : SMap Int) (adj' : SMap (List String)),
      addEdges byId ns inDeg adj = .ok (inDeg', adj') := by
  intro ns
  induction ns with
  | nil =>
    intro inDeg adj _
    exact ⟨inDeg, adj, rfl⟩
  | cons n rest ih =>
    intro inDeg adj hvalid
    obtain ⟨i1, a1, h1⟩ :=
      addNodeEdges_complete n.dependsOn inDeg adj (hvalid n (List.mem_cons_self _ _))
    obtain ⟨inDeg', adj', h2⟩ :=
      ih i1 a1 (fun m hm => hvalid m (List.mem_cons_of_mem _ hm))
    refine ⟨inDeg', adj', ?_⟩
    have hstep : addEdges byId (n :: rest) inDeg adj = addEdges byId rest i1 a1 := by
      simp only [addEdges]
      rw [h1]
    rw [hstep]
    exact h2

/-! ## `topoSort` characterisation -/

theorem keys_map_pair {α β : Type} (key : α → String) (f : α → β) (l : List α) :
    (l.map fun a => (key a, f a)).map Prod.fst = l.map key := by
  induction l with
  | nil => rfl
  | cons a rest ih => simp [ih]

theorem mapGet_map_pair_of_mem {α β : Type} (key : α → String) (f : α → β) :
    ∀ {l : List α} {x : α}, (l.map key).Nodup → x ∈ l →
    mapGet (l.map fun a => (key a, f a)) (key x) = some (f x) := by
  intro l
  induction l with
  | nil => intro x _ h; simp at h
  | cons a rest ih =>
    intro x hnd hx
    simp only [List.map_cons, List.nodup_cons] at hnd
    rcases List.mem_cons.mp hx with h | h
    · subst h
      simp [mapGet]
    · have hne : key a ≠ key x := fun hh => hnd.1 (hh ▸ List.mem_map_of_mem key h)
      simp only [List.map_cons, mapGet, hne, if_false]
      exact ih hnd.2 h

theorem mapGet_of_mem_keys {α : Type} {m : SMap α} {k : String}
    (h : k ∈ m.map Prod.fst) (d : α) : mapGet m k = some (mapGetD m k d) := by
  rcases hg : mapGet m k with _ | x
  · exact absurd (mapGet_eq_none.mp hg) (by simpa using h)
  · rw [mapGetD, hg]
    rfl

theorem mapGet_of_mem_nodup {α : Type} : ∀ {m : SMap α} {k : String} {v : α},
    (k, v) ∈ m → (m.map Prod.fst).Nodup → mapGet m k = some v := by
  intro m
  induction m with
  | nil => intro k v h _; simp at h
  | cons p rest ih =>
    intro k v h hnd
    obtain ⟨k', v'⟩ := p
    simp only [List.map_cons, List.nodup_cons] at hnd
    rcases List.mem_cons.mp h with h | h
    · obtain ⟨h1, h2⟩ := Prod.mk.injEq .. ▸ h
      cases h
      simp [mapGet]
    · have hne : k' ≠ k := by
        intro hh
        subst hh
        exact hnd.1 (List.mem_map_of_mem Prod.fst h)
      simp only [mapGet, hne, if_false]
      exact ih h hnd.2

theorem remaining_nil (n : NodeSpec) : remaining [] n = n.dependsOn.length := by
  simp [remaining]

theorem adjList_eq_nil_of_not_mem {nodes : List NodeSpec} {u : String}
    (hvalid : ∀ n ∈ nodes, ∀ d ∈ n.dependsOn, d ∈ nodes.map NodeSpec.id)
    (hu : u ∉ nodes.map NodeSpec.id) : adjList nodes u = [] := by
  rw [adjList]
  rw [List.join_eq_nil_iff]
  intro l hl
  obtain ⟨n, hn, rfl⟩ := List.mem_map.mp hl
  have : u ∉ n.dependsOn := fun hmem => hu (hvalid n hn u hmem)
  rw [List.count_eq_zero.mpr this]
  rfl

theorem topoSort_main {nodes : List NodeSpec}
    (hnd : (nodes.map NodeSpec.id).Nodup)
    (hvalid : ∀ n ∈ nodes, ∀ d ∈ n.dependsOn, d ∈ nodes.map NodeSpec.id) :
    ∃ res : List NodeSpec,
      (res.map NodeSpec.id).Nodup ∧ (∀ r ∈ res, r ∈ nodes) ∧ depsClosed [] res ∧
      topoSort nodes =
        (if res.length = nodes.length then .ok res else .error .cyclicGraph) := by
  obtain ⟨byId, inDeg0, adj0, hinit⟩ :=
    initMaps_complete nodes [] [] [] (by simp) hnd
  obtain ⟨-, -, hbyId, hinDeg0, hadj0⟩ := initMaps_ok nodes [] [] [] rfl rfl hinit
  simp only [List.nil_append] at hbyId hinDeg0 hadj0
  have hbk : byId.map Prod.fst = nodes.map NodeSpec.id := by
    rw [hbyId, keys_map_pair]
  have hik : inDeg0.map Prod.fst = nodes.map NodeSpec.id := by
    rw [hinDeg0, keys_map_pair]
  have hak : adj0.map Prod.fst = nodes.map NodeSpec.id := by
    rw [hadj0, keys_map_pair]
  have hhasid : ∀ d, d ∈ nodes.map NodeSpec.id → mapHas byId d = true := by
    intro d hd
    rw [mapHas, mapGet_isSome, hbk]
    exact hd
  obtain ⟨inDegF, adjF, hedge⟩ :=
    addEdges_complete nodes inDeg0 adj0 (fun n hn d hd => hhasid d (hvalid n hn d hd))
  obtain ⟨-, hikF, hakF, hdegF, -, hadjF⟩ :=
    addEdges_ok nodes inDeg0 adj0 hnd (fun n hn => hik ▸ List.mem_map_of_mem NodeSpec.id hn)
      hedge
  have hdeg0 : ∀ n ∈ nodes, mapGetD inDeg0 n.id 0 = 0 := by
    intro n hn
    rw [hinDeg0, mapGetD, mapGet_map_pair_of_mem NodeSpec.id _ hnd hn]
    rfl
  have hadj0pt : ∀ u, mapGetD adjF u [] = adjList nodes u := by
    intro u
    by_cases hu : u ∈ nodes.map NodeSpec.id
    · obtain ⟨n, hn, rfl⟩ := List.mem_map.mp hu
      have h0 : mapGet adj0 n.id = some [] := by
        rw [hadj0]
        exact mapGet_map_pair_of_mem NodeSpec.id _ hnd hn
      rw [mapGetD, hadjF, h0]
      rfl
    · have h0 : mapGet adj0 u = none := by
        rw [mapGet_eq_none, hak]
        exact hu
      rw [mapGetD, hadjF, h0, adjList_eq_nil_of_not_mem hvalid hu]
      rfl
  have hdegFpt : ∀ n ∈ nodes, mapGetD inDegF n.id 0 = (n.dependsOn.length : Int) := by
    intro n hn
    rw [hdegF n hn, hdeg0 n hn]
    simp
  -- the seeded queue
  have hqsub : List.Sublist (seedQueue inDegF) (inDegF.map Prod.fst) := by
    rw [seedQueue]
    exact (List.filter_sublist inDegF).map Prod.fst
  have hqnd : (seedQueue inDegF).Nodup := by
    refine List.Sublist.nodup hqsub ?_
    rw [hikF, hik]
    exact hnd
  have hqids : ∀ v ∈ seedQueue inDegF, v ∈ nodes.map NodeSpec.id := by
    intro v hv
    have := hqsub.mem hv
    rwa [hikF, hik] at this
  have hqzero : ∀ v ∈ seedQueue inDegF, mapGetD inDegF v 0 = 0 := by
    intro v hv
    rw [seedQueue] at hv
    obtain ⟨⟨k, x⟩, hmem, hk⟩ := List.mem_map.mp hv
    obtain ⟨hmem2, hx⟩ := List.mem_filter.mp hmem
    simp only at hk
    subst hk
    have hx0 : x = 0 := by simpa using hx
    subst hx0
    have : mapGet inDegF k = some 0 := by
      refine mapGet_of_mem_nodup hmem2 ?_
      rw [hikF, hik]
      exact hnd
    rw [mapGetD, this]
    rfl
  have hinv : SortInv nodes inDegF (seedQueue inDegF) [] := by
    refine ⟨by rw [hikF, hik], by simp, by simpa using hqnd, hqids, ?_, ?_, trivial⟩
    · intro n hn
      rw [hdegFpt n hn]
      simp [remaining_nil]
    · intro v hv n hn hnv d hd
      have h0 := hqzero v hv
      rw [← hnv] at h0
      rw [hdegFpt n hn] at h0
      have : n.dependsOn.length = 0 := by exact_mod_cast h0
      rw [List.length_eq_zero] at this
      rw [this] at hd
      simp at hd
  obtain ⟨res, inDeg', hloop, hfinal⟩ :=
    sortLoop_spec hnd hbyId hadj0pt
      ((seedQueue inDegF).length + degSum inDegF + 1)
      inDegF (seedQueue inDegF) [] hinv (by omega)
  refine ⟨res, by simpa using hfinal.nodups, hfinal.resSub, hfinal.ordered, ?_⟩
  simp only [topoSort, hinit, hedge, hloop]

theorem topoSort_ok_valid {nodes l : List NodeSpec} (h : topoSort nodes = .ok l) :
    (nodes.map NodeSpec.id).Nodup ∧
    (∀ n ∈ nodes, ∀ d ∈ n.dependsOn, d ∈ nodes.map NodeSpec.id) := by
  rw [topoSort] at h
  split at h
  · simp at h
  · rename_i byId inDeg0 adj0 hinit
    obtain ⟨-, hnd, hbyId, hinDeg0, -⟩ := initMaps_ok nodes [] [] [] rfl rfl hinit
    simp only [List.nil_append] at hbyId hinDeg0
    split at h
    · simp at h
    · rename_i inDegF adjF hedge
      have hik : inDeg0.map Prod.fst = nodes.map NodeSpec.id := by
        rw [hinDeg0, keys_map_pair]
      obtain ⟨hvalid, -, -, -, -, -⟩ :=
        addEdges_ok nodes inDeg0 adj0 hnd
          (fun n hn => hik ▸ List.mem_map_of_mem NodeSpec.id hn) hedge
      refine ⟨hnd, fun n hn d hd => ?_⟩
      have hh := hvalid n hn d hd
      rw [mapHas, mapGet_isSome, hbyId, keys_map_pair] at hh
      exact hh

theorem topo_result_perm {nodes res : List NodeSpec}
    (hnd : (nodes.map NodeSpec.id).Nodup) (hsub : ∀ r ∈ res, r ∈ nodes)
    (hrnd : (res.map NodeSpec.id).Nodup) (hlen : res.length = nodes.length) :
    res.Perm nodes := by
  have hresnd : res.Nodup := List.Nodup.of_map NodeSpec.id hrnd
  have hsubperm : res.Subperm nodes := List.subperm_of_subset hresnd hsub
  exact hsubperm.perm_of_length_le (by omega)

/-! ## Acyclicity from a topological order -/

theorem depEdge_index_lt {nodes l : List NodeSpec}
    (hperm : l.Perm nodes) (hrnd : (l.map NodeSpec.id).Nodup)
    (hord : depsClosed [] l) {u v : String} (he : depEdge nodes u v) :
    List.indexOf u (l.map NodeSpec.id) < List.indexOf v (l.map NodeSpec.id) := by
  obtain ⟨n, hn, rfl, hu⟩ := he
  have hnl : n ∈ l := hperm.mem_iff.mpr hn
  obtain ⟨l₁, l₂, rfl⟩ := List.append_of_mem hnl
  have hmapeq : (l₁ ++ n :: l₂).map NodeSpec.id =
      l₁.map NodeSpec.id ++ n.id :: l₂.map NodeSpec.id := by simp
  have hvnotl1 : n.id ∉ l₁.map NodeSpec.id := by
    rw [hmapeq] at hrnd
    rcases List.nodup_append.mp hrnd with ⟨-, -, hdisj⟩
    exact fun hmem => hdisj hmem (List.mem_cons_self _ _)
  have hul1 : u ∈ l₁.map NodeSpec.id := by
    have hsp := depsClosed_split l₁ hord u hu
    simpa using hsp
  have hidxv : List.indexOf n.id ((l₁ ++ n :: l₂).map NodeSpec.id) =
      (l₁.map NodeSpec.id).length := by
    rw [hmapeq, List.indexOf_append_of_not_mem hvnotl1, List.indexOf_cons_self]
    omega
  have hidxu : List.indexOf u ((l₁ ++ n :: l₂).map NodeSpec.id) <
      (l₁.map NodeSpec.id).length := by
    rw [hmapeq]
    have h1 : u ∈ l₁.map NodeSpec.id ++ n.id :: l₂.map NodeSpec.id := by
      simp [hul1]
    rw [List.indexOf_append_of_mem hul1]
    exact List.indexOf_lt_length.mpr hul1
  omega

theorem no_cycle_of_topo {nodes l : List NodeSpec}
    (hperm : l.Perm nodes) (hrnd : (l.map NodeSpec.id).Nodup) (hord : depsClosed [] l)
    {v : String} (hcyc : Relation.TransGen (depEdge nodes) v v) : False := by
  have hstep : ∀ a b, Relation.TransGen (depEdge nodes) a b →
      List.indexOf a (l.map NodeSpec.id) < List.indexOf b (l.map NodeSpec.id) := by
    intro a b hab
    induction hab with
    | single h => exact depEdge_index_lt hperm hrnd hord h
    | tail _ h ih => exact lt_trans ih (depEdge_index_lt hperm hrnd hord h)
  exact lt_irrefl _ (hstep v v hcyc)

/-! ## Execution-loop lemmas -/

theorem runNodes_spec (modules : ModuleEnv) (baseDir : String) :
    ∀ (l : List NodeSpec) (state : SMap ExecutionRecord),
    depsClosed (state.map Prod.fst) l →
    (state.map Prod.fst ++ l.map NodeSpec.id).Nodup →
    (∀ e, runNodes modules baseDir l state = .error e →
      (∃ p, e = .moduleLoadFailure p) ∨ ∃ i, e = .missingEntryPoint i) ∧
    (∀ s', runNodes modules baseDir l state = .ok s' →
      ∃ tail, s' = state ++ tail ∧ tail.map Prod.fst = l.map NodeSpec.id ∧
        ∀ p ∈ tail, ∃ n ∈ l, n.id = p.1 ∧ p.2.dependencies = n.dependsOn) := by
  intro l
  induction l with
  | nil =>
    intro state _ _
    refine ⟨fun e he => by simp [runNodes] at he, fun s' hs => ?_⟩
    simp only [runNodes, Except.ok.injEq] at hs
    exact ⟨[], by simp [hs.symm], by simp, by simp⟩
  | cons n rest ih =>
    intro state hdc hnodup
    simp only [depsClosed] at hdc
    have hri : ∃ x, resolveInput n state = .ok x := by
      cases hlast : n.dependsOn.getLast? with
      | none => exact ⟨0, by simp only [resolveInput, hlast]⟩
      | some d =>
        have hd : d ∈ n.dependsOn := by
          obtain ⟨hne, hdeq⟩ :=
            List.mem_getLast?_eq_getLast (l := n.dependsOn) (x := d) hlast
          rw [hdeq]
          exact List.getLast_mem hne
        have hdone : d ∈ state.map Prod.fst := hdc.1 d hd
        rcases hg : mapGet state d with _ | r
        · exact absurd (mapGet_eq_none.mp hg) (by simpa using hdone)
        · exact ⟨r.output, by simp only [resolveInput, hlast, hg]⟩
    obtain ⟨x, hri⟩ := hri
    have hkfresh : n.id ∉ state.map Prod.fst := by
      rcases List.nodup_append.mp hnodup with ⟨-, -, hdisj⟩
      exact fun hmem => hdisj hmem (by simp)
    cases hmod : modules (pathResolve baseDir n.wasm) with
    | none =>
      have hrn : runNodes modules baseDir (n :: rest) state =
          .error (.moduleLoadFailure (pathResolve baseDir n.wasm)) := by
        simp only [runNodes, executeNode, hmod]
      refine ⟨fun e he => ?_, fun s' hs => ?_⟩
      · rw [hrn] at he
        exact Or.inl ⟨pathResolve baseDir n.wasm, (Except.error.inj he).symm⟩
      · rw [hrn] at hs
        exact absurd hs (by simp)
    | some m =>
      cases hmain : m.main with
      | none =>
        have hrn : runNodes modules baseDir (n :: rest) state =
            .error (.missingEntryPoint n.id) := by
          simp only [runNodes, executeNode, hmod, hmain]
        refine ⟨fun e he => ?_, fun s' hs => ?_⟩
        · rw [hrn] at he
          exact Or.inr ⟨n.id, (Except.error.inj he).symm⟩
        · rw [hrn] at hs
          exact absurd hs (by simp)
      | some f =>
        have hstep : executeNode modules baseDir n state =
            .ok (state ++ [(n.id, ⟨x, f x, n.dependsOn⟩)]) := by
          simp only [executeNode, hmod, hmain, hri]
          rw [mapSet_of_not_mem hkfresh]
        have hrn : runNodes modules baseDir (n :: rest) state =
            runNodes modules baseDir rest (state ++ [(n.id, ⟨x, f x, n.dependsOn⟩)]) := by
          simp only [runNodes, hstep]
        have hkeys' : (state ++ [(n.id, (⟨x, f x, n.dependsOn⟩ : ExecutionRecord))]).map
            Prod.fst = state.map Prod.fst ++ [n.id] := by
          simp
        have hdc' : depsClosed ((state ++
            [(n.id, (⟨x, f x, n.dependsOn⟩ : ExecutionRecord))]).map Prod.fst) rest := by
          rw [hkeys']
          exact hdc.2
        have hnodup' : ((state ++
            [(n.id, (⟨x, f x, n.dependsOn⟩ : ExecutionRecord))]).map Prod.fst ++
            rest.map NodeSpec.id).Nodup := by
          rw [hkeys']
          have heq : state.map Prod.fst ++ [n.id] ++ rest.map NodeSpec.id =
              state.map Prod.fst ++ (n :: rest).map NodeSpec.id := by
            simp
          rw [heq]
          exact hnodup
        obtain ⟨iherr, ihok⟩ := ih _ hdc' hnodup'
        refine ⟨fun e he => ?_, fun s' hs => ?_⟩
        · rw [hrn] at he
          exact iherr e he
        · rw [hrn] at hs
          obtain ⟨tail, h1, h2, h3⟩ := ihok s' hs
          refine ⟨(n.id, ⟨x, f x, n.dependsOn⟩) :: tail, ?_, ?_, ?_⟩
          · rw [h1]
            simp
          · simp [h2]
          · intro p hp
            rcases List.mem_cons.mp hp with hp | hp
            · subst hp
              exact ⟨n, List.mem_cons_self _ _, rfl, rfl⟩
            · obtain ⟨m', hm', h4, h5⟩ := h3 p hp
              exact ⟨m', List.mem_cons_of_mem _ hm', h4, h5⟩

theorem runNodes_append_error (modules : ModuleEnv) (baseDir : String) :
    ∀ (l₁ : List NodeSpec) (state : SMap ExecutionRecord)
    {s₁ : SMap ExecutionRecord} {n : NodeSpec} (l₂ : List NodeSpec) {e : RtError},
    runNodes modules baseDir l₁ state = .ok s₁ →
    executeNode modules baseDir n s₁ = .error e →
    runNodes modules baseDir (l₁ ++ n :: l₂) state = .error e := by
  intro l₁
  induction l₁ with
  | nil =>
    intro state s₁ n l₂ e h1 h2
    simp only [runNodes, Except.ok.injEq] at h1
    subst h1
    simp only [List.nil_append, runNodes, h2]
  | cons m rest ih =>
    intro state s₁ n l₂ e h1 h2
    simp only [runNodes] at h1
    cases hex : executeNode modules baseDir m state with
    | error e' =>
      rw [hex] at h1
      exact absurd h1 (by simp)
    | ok st' =>
      rw [hex] at h1
      have := ih st' l₂ h1 h2
      simp only [List.cons_append, runNodes, hex]
      exact this

/-! ## Claim theorems -/

/-- C1: for every sequence of `NodeSpec` on which `topoSort` returns normally,
the returned sequence is a permutation of the input in which, for every node
`n` and every id `d` in `n.dependsOn`, the node with id `d` appears strictly
before `n`. -/
theorem topoSort_topological_order {nodes l : List NodeSpec}
    (h : topoSort nodes = .ok l) :
    l.Perm nodes ∧
    ∀ (l₁ : List NodeSpec) (n : NodeSpec) (l₂ : List NodeSpec),
      l = l₁ ++ n :: l₂ → ∀ d ∈ n.dependsOn, d ∈ l₁.map NodeSpec.id := by
  obtain ⟨hnd, hvalid⟩ := topoSort_ok_valid h
  obtain ⟨res, hrnd, hsub, hord, heq⟩ := topoSort_main hnd hvalid
  rw [heq] at h
  by_cases hlen : res.length = nodes.length
  · rw [if_pos hlen] at h
    have hlr : l = res := (Except.ok.inj h).symm
    subst hlr
    refine ⟨topo_result_perm hnd hsub hrnd hlen, ?_⟩
    intro l₁ n l₂ hsplit d hd
    subst hsplit
    simpa using depsClosed_split l₁ hord d hd
  · rw [if_neg hlen] at h
    exact absurd h (by simp)

/-- Witness for C1: the two-node chain sorts to itself, and the conclusion
holds there. -/
theorem topoSort_topological_order_witness :
    topoSort pairNodes = .ok pairNodes ∧
    (pairNodes.Perm pairNodes ∧
      ∀ (l₁ : List NodeSpec) (n : NodeSpec) (l₂ : List NodeSpec),
        pairNodes = l₁ ++ n :: l₂ → ∀ d ∈ n.dependsOn, d ∈ l₁.map NodeSpec.id) :=
  ⟨by rfl, topoSort_topological_order (by rfl)⟩

/-- C2: `resolveInput` yields `0` for a node with no declared dependencies;
otherwise it yields exactly the recorded output of the last-declared
dependency (and the defensive error when that record is absent), never a
combination of the other dependencies' outputs. -/
theorem resolveInput_last_dependency (node : NodeSpec) (state : SMap ExecutionRecord) :
    (node.dependsOn = [] → resolveInput node state = .ok 0) ∧
    (∀ (ds : List String) (d : String), node.dependsOn = ds ++ [d] →
      (∀ r, mapGet state d = some r → resolveInput node state = .ok r.output) ∧
      (mapGet state d = none →
        resolveInput node state = .error (.missingUpstreamState d))) := by
  constructor
  · intro h
    simp only [resolveInput, h, List.getLast?_eq_none_iff.mpr rfl]
  · intro ds d hds
    have hlast : node.dependsOn.getLast? = some d := by
      rw [hds]
      exact List.getLast?_concat ds
    constructor
    · intro r hr
      simp only [resolveInput, hlast, hr]
    · intro hr
      simp only [resolveInput, hlast, hr]

/-- Witness for C2: a node depending on `["a", "b"]` reads the record of `b`
only. -/
theorem resolveInput_last_dependency_witness :
    ((⟨"n", "n.wasm", ["a", "b"]⟩ : NodeSpec).dependsOn = ["a"] ++ ["b"] ∧
      mapGet [("a", (⟨0, 5, []⟩ : ExecutionRecord)), ("b", ⟨0, 7, []⟩)] "b" =
        some ⟨0, 7, []⟩) ∧
    resolveInput ⟨"n", "n.wasm", ["a", "b"]⟩
      [("a", ⟨0, 5, []⟩), ("b", ⟨0, 7, []⟩)] = .ok (7 : Int) :=
  ⟨⟨rfl, rfl⟩,
    ((resolveInput_last_dependency ⟨"n", "n.wasm", ["a", "b"]⟩
      [("a", ⟨0, 5, []⟩), ("b", ⟨0, 7, []⟩)]).2 ["a"] "b" rfl).1 ⟨0, 7, []⟩ rfl⟩

/-- C3: the three-node scenario (`fetchUser`, `calcDiscount`, `renderProfile`)
runs to the expected final state: inputs 0, 1001, 2001 and outputs 1001,
2001, 4002 respectively. -/
theorem runGraph_scenario :
    runGraphNodes demoModules "." demoNodes = .ok demoResult := by rfl

/-- C4: for every duplicate-free input whose dependencies all exist, a cycle
in the dependency relation (including a self-loop) makes `topoSort` fail with
the `CyclicGraph` error. -/
theorem topoSort_cyclic_fails {nodes : List NodeSpec}
    (hnd : (nodes.map NodeSpec.id).Nodup)
    (hvalid : ∀ n ∈ nodes, ∀ d ∈ n.dependsOn, d ∈ nodes.map NodeSpec.id)
    (hcyc : ∃ v, Relation.TransGen (depEdge nodes) v v) :
    topoSort nodes = .error .cyclicGraph := by
  obtain ⟨res, hrnd, hsub, hord, heq⟩ := topoSort_main hnd hvalid
  by_cases hlen : res.length = nodes.length
  · exfalso
    obtain ⟨v, hv⟩ := hcyc
    exact no_cycle_of_topo (topo_result_perm hnd hsub hrnd hlen) hrnd hord hv
  · rw [heq, if_neg hlen]

/-- Witness for C4: the self-loop graph fails with `CyclicGraph`. -/
theorem topoSort_cyclic_fails_witness :
    ((loopNodes.map NodeSpec.id).Nodup ∧
      (∀ n ∈ loopNodes, ∀ d ∈ n.dependsOn, d ∈ loopNodes.map NodeSpec.id) ∧
      (∃ v, Relation.TransGen (depEdge loopNodes) v v)) ∧
    topoSort loopNodes = .error .cyclicGraph :=
  ⟨⟨by decide, by decide,
      ⟨"c", Relation.TransGen.single ⟨⟨"c", "c.wasm", ["c"]⟩, by decide, rfl, by decide⟩⟩⟩,
    topoSort_cyclic_fails (by decide) (by decide)
      ⟨"c", Relation.TransGen.single ⟨⟨"c", "c.wasm", ["c"]⟩, by decide, rfl, by decide⟩⟩⟩

/-- C5: for every duplicate-free input in which some node's `dependsOn` names
a nonexistent id, resolution fails with the `UnknownDependency` error, and a
full run fails identically for every module environment — no module is loaded
or executed. -/
theorem topoSort_unknown_dependency {nodes : List NodeSpec}
    (hnd : (nodes.map NodeSpec.id).Nodup)
    (hbad : ∃ n ∈ nodes, ∃ d ∈ n.dependsOn, d ∉ nodes.map NodeSpec.id) :
    ∃ nid dep, topoSort nodes = .error (.unknownDependency nid dep) ∧
      ∀ (modules : ModuleEnv) (baseDir : String),
        runGraphNodes modules baseDir nodes = .error (.unknownDependency nid dep) := by
  obtain ⟨byId, inDeg0, adj0, hinit⟩ := initMaps_complete nodes [] [] [] (by simp) hnd
  obtain ⟨-, -, hbyId, -, -⟩ := initMaps_ok nodes [] [] [] rfl rfl hinit
  simp only [List.nil_append] at hbyId
  have hbk : byId.map Prod.fst = nodes.map NodeSpec.id := by rw [hbyId, keys_map_pair]
  have hbad' : ∃ n ∈ nodes, ∃ d ∈ n.dependsOn, mapHas byId d = false := by
    obtain ⟨n, hn, d, hd, hnot⟩ := hbad
    refine ⟨n, hn, d, hd, ?_⟩
    rw [mapHas, mapGet_eq_none.mpr (by rw [hbk]; exact hnot)]
    rfl
  obtain ⟨nid, dep, herr⟩ := addEdges_error nodes inDeg0 adj0 hbad'
  have htopo : topoSort nodes = .error (.unknownDependency nid dep) := by
    simp only [topoSort, hinit, herr]
  exact ⟨nid, dep, htopo, fun modules baseDir => by simp only [runGraphNodes, htopo]⟩

/-- Witness for C5: the dangling-dependency graph fails with
`UnknownDependency` for every module environment. -/
theorem topoSort_unknown_dependency_witness :
    ((danglingNodes.map NodeSpec.id).Nodup ∧
      (∃ n ∈ danglingNodes, ∃ d ∈ n.dependsOn, d ∉ danglingNodes.map NodeSpec.id)) ∧
    (∃ nid dep, topoSort danglingNodes = .error (.unknownDependency nid dep) ∧
      ∀ (modules : ModuleEnv) (baseDir : String),
        runGraphNodes modules baseDir danglingNodes =
          .error (.unknownDependency nid dep)) :=
  ⟨⟨by decide, by decide⟩, topoSort_unknown_dependency (by decide) (by decide)⟩

/-- C6: if any stage of a full run fails — loading, resolution, or the
execution of any node — the whole run fails with that error, and no execution
state (not even a partial one) is returned. -/
theorem runGraph_fail_fast (modules : ModuleEnv) (toNodes : Json → List NodeSpec)
    (payload : Option Json) (graphPath : String) (e : RtError)
    (hfail :
      loadGraph payload = .error e ∨
      (∃ spec, loadGraph payload = .ok spec ∧ topoSort (toNodes spec) = .error e) ∨
      (∃ spec l l₁ n l₂ s₁, loadGraph payload = .ok spec ∧
        topoSort (toNodes spec) = .ok l ∧ l = l₁ ++ n :: l₂ ∧
        runNodes modules (pathDirname graphPath) l₁ [] = .ok s₁ ∧
        executeNode modules (pathDirname graphPath) n s₁ = .error e)) :
    runGraph modules toNodes payload graphPath = .error e := by
  rcases hfail with h | ⟨spec, h1, h2⟩ | ⟨spec, l, l₁, n, l₂, s₁, h1, h2, h3, h4, h5⟩
  · simp only [runGraph, h]
  · simp only [runGraph, h1, h2]
  · subst h3
    simp only [runGraph, h1, h2]
    exact runNodes_append_error modules (pathDirname graphPath) l₁ [] l₂ h4 h5

/-- Witness for C6: an undecodable payload aborts the whole run with the
load-stage error. -/
theorem runGraph_fail_fast_witness :
    (loadGraph none = .error .malformedGraph ∨
      (∃ spec, loadGraph none = .ok spec ∧
        topoSort ((fun _ => []) spec) = .error .malformedGraph) ∨
      (∃ spec l l₁ n l₂ s₁, loadGraph none = .ok spec ∧
        topoSort ((fun _ => ([] : List NodeSpec)) spec) = .ok l ∧ l = l₁ ++ n :: l₂ ∧
        runNodes (fun _ => none) (pathDirname "graph.json") l₁ [] = .ok s₁ ∧
        executeNode (fun _ => none) (pathDirname "graph.json") n s₁ =
          .error .malformedGraph)) ∧
    runGraph (fun _ => none) (fun _ => []) none "graph.json" = .error .malformedGraph :=
  ⟨Or.inl rfl, runGraph_fail_fast _ _ _ _ _ (Or.inl rfl)⟩

/-- C7: on every successful run the returned state's keys, in insertion
order, are exactly the node ids of the resolved execution order; each node's
record is inserted exactly once (the keys are duplicate-free) and carries the
dependency snapshot of its node, never overwritten afterwards. -/
theorem runGraph_state_insertion_order {modules : ModuleEnv} {baseDir : String}
    {nodes : List NodeSpec} {s : SMap ExecutionRecord}
    (h : runGraphNodes modules baseDir nodes = .ok s) :
    ∃ l, topoSort nodes = .ok l ∧
      s.map Prod.fst = l.map NodeSpec.id ∧ (s.map Prod.fst).Nodup ∧
      ∀ p ∈ s, ∃ n ∈ l, n.id = p.1 ∧ p.2.dependencies = n.dependsOn := by
  rw [runGraphNodes] at h
  split at h
  · simp at h
  · rename_i l ht
    obtain ⟨hnd, hvalid⟩ := topoSort_ok_valid ht
    obtain ⟨res, hrnd, hsub, hord, heq⟩ := topoSort_main hnd hvalid
    have ht2 := ht
    rw [heq] at ht2
    by_cases hlen : res.length = nodes.length
    · rw [if_pos hlen] at ht2
      have hrl : res = l := Except.ok.inj ht2
      subst hrl
      obtain ⟨-, ihok⟩ := runNodes_spec modules baseDir res []
        (by simpa using hord) (by simpa using hrnd)
      obtain ⟨tail, h1, h2, h3⟩ := ihok s h
      simp only [List.nil_append] at h1
      subst h1
      exact ⟨res, ht, h2, by rw [h2]; exact hrnd, h3⟩
    · rw [if_neg hlen] at ht2
      exact absurd ht2 (by simp)

/-- Witness for C7: the scenario run returns keys in execution order. -/
theorem runGraph_state_insertion_order_witness :
    runGraphNodes demoModules "." demoNodes = .ok demoResult ∧
    (∃ l, topoSort demoNodes = .ok l ∧
      demoResult.map Prod.fst = l.map NodeSpec.id ∧
      (demoResult.map Prod.fst).Nodup ∧
      ∀ p ∈ demoResult, ∃ n ∈ l, n.id = p.1 ∧ p.2.dependencies = n.dependsOn) :=
  ⟨by rfl, @runGraph_state_insertion_order demoModules "." demoNodes demoResult (by rfl)⟩

/-- C8 counterexample: a node object that carries its module location under
the key `modulePath` — the field name the claim prescribes — is unreadable by
the runtime, whose property access (`nodeWasm`) reads the key `wasm`; the
same location under `wasm` is read successfully. -/
theorem modulePath_field_counterexample :
    nodeWasm (Json.obj [("id", Json.str "a"), ("modulePath", Json.str "a.wasm"),
      ("dependsOn", Json.arr [])]) = none ∧
    (Json.obj [("id", Json.str "a"), ("modulePath", Json.str "a.wasm"),
      ("dependsOn", Json.arr [])]).get "modulePath" = some (Json.str "a.wasm") ∧
    nodeWasm (Json.obj [("id", Json.str "a"), ("wasm", Json.str "a.wasm")]) =
      some (Json.str "a.wasm") :=
  ⟨rfl, rfl, rfl⟩

/-- C8 (amended): each node carries its sandboxed module's location in the
field named `wasm`, and execution consults the module store only at that path
resolved against the graph file's directory before loading: two module
environments agreeing at `pathResolve baseDir node.wasm` produce identical
executions. -/
theorem executeNode_uses_resolved_wasm (modules₁ modules₂ : ModuleEnv)
    (baseDir : String) (node : NodeSpec) (state : SMap ExecutionRecord)
    (h : modules₁ (pathResolve baseDir node.wasm) =
      modules₂ (pathResolve baseDir node.wasm)) :
    executeNode modules₁ baseDir node state = executeNode modules₂ baseDir node state := by
  simp only [executeNode, h]

/-- Witness for C8 (amended): an environment defined only at the resolved
path and a total environment agree there, so execution coincides. -/
theorem executeNode_uses_resolved_wasm_witness :
    oneModuleEnv (pathResolve "base" wNode.wasm) =
      constModuleEnv (pathResolve "base" wNode.wasm) ∧
    executeNode oneModuleEnv "base" wNode [] = executeNode constModuleEnv "base" wNode [] :=
  ⟨by rfl, executeNode_uses_resolved_wasm oneModuleEnv constModuleEnv "base" wNode [] (by rfl)⟩

/-- C9: `loadGraph` succeeds and returns the decoded value exactly when the
payload decodes as structured data and its top-level `nodes` field is an
array; in every other case (undecodable payload, `nodes` absent or not an
array, or a `null` decode) it fails with the `MalformedGraph` error. -/
theorem loadGraph_malformed_spec (payload : Option Json) :
    (∀ j, loadGraph payload = .ok j ↔
      (payload = some j ∧ ∃ xs, j.get "nodes" = some (Json.arr xs))) ∧
    ((¬∃ j, payload = some j ∧ ∃ xs, j.get "nodes" = some (Json.arr xs)) →
      loadGraph payload = .error .malformedGraph) := by
  cases payload with
  | none =>
    refine ⟨fun j => ?_, fun _ => rfl⟩
    simp [loadGraph]
  | some j0 =>
    by_cases harr : ∃ xs, j0.get "nodes" = some (Json.arr xs)
    · obtain ⟨xs, hxs⟩ := harr
      have hok : loadGraph (some j0) = .ok j0 := by
        simp only [loadGraph, hxs]
      refine ⟨fun j => ?_, fun hno => ?_⟩
      · constructor
        · intro h
          rw [hok] at h
          have : j0 = j := Except.ok.inj h
          subst this
          exact ⟨rfl, xs, hxs⟩
        · rintro ⟨hpj, -⟩
          have : j0 = j := Option.some.inj hpj
          subst this
          exact hok
      · exact absurd ⟨j0, rfl, xs, hxs⟩ hno
    · have herr : loadGraph (some j0) = .error .malformedGraph := by
        rcases hg : j0.get "nodes" with _ | j1
        · simp only [loadGraph, hg]
        · cases j1 with
          | arr xs => exact absurd ⟨xs, hg⟩ harr
          | null => simp only [loadGraph, hg]
          | bool b => simp only [loadGraph, hg]
          | num x => simp only [loadGraph, hg]
          | str s => simp only [loadGraph, hg]
          | obj fs => simp only [loadGraph, hg]
      refine ⟨fun j => ?_, fun _ => herr⟩
      constructor
      · intro h
        rw [herr] at h
        exact absurd h (by simp)
      · rintro ⟨hpj, xs, hxs⟩
        have : j0 = j := Option.some.inj hpj
        subst this
        exact absurd ⟨xs, hxs⟩ harr

/-- Witness for C9: a `null` decode satisfies the failure side, so the load
fails with `MalformedGraph`. -/
theorem loadGraph_malformed_spec_witness :
    (¬∃ j, some Json.null = some j ∧ ∃ xs, j.get "nodes" = some (Json.arr xs)) ∧
    loadGraph (some Json.null) = .error .malformedGraph := by
  have hno : ¬∃ j, some Json.null = some j ∧ ∃ xs, j.get "nodes" = some (Json.arr xs) := by
    rintro ⟨j, hj, xs, hxs⟩
    have : Json.null = j := Option.some.inj hj
    subst this
    simp [Json.get] at hxs
  exact ⟨hno, (loadGraph_malformed_spec (some Json.null)).2 hno⟩

/-- C10: on inputs passing the duplicate-id and unknown-dependency checks —
duplicated entries inside a `dependsOn` list allowed — the defensive internal
branches are unreachable: `topoSort` never fails with the node-missing or
negative-indegree faults, and no run over the resolved order ever fails with
the missing-upstream-state fault. -/
theorem internal_faults_unreachable {nodes : List NodeSpec}
    (hnd : (nodes.map NodeSpec.id).Nodup)
    (hvalid : ∀ n ∈ nodes, ∀ d ∈ n.dependsOn, d ∈ nodes.map NodeSpec.id) :
    (∀ x, topoSort nodes ≠ .error (.sortMissingNode x)) ∧
    (∀ x, topoSort nodes ≠ .error (.negativeIndegree x)) ∧
    (∀ (modules : ModuleEnv) (baseDir : String) (x : String),
      runGraphNodes modules baseDir nodes ≠ .error (.missingUpstreamState x)) := by
  obtain ⟨res, hrnd, hsub, hord, heq⟩ := topoSort_main hnd hvalid
  have htopo : topoSort nodes = .ok res ∨ topoSort nodes = .error .cyclicGraph := by
    rw [heq]
    split
    · exact Or.inl rfl
    · exact Or.inr rfl
  refine ⟨?_, ?_, ?_⟩
  · intro x hx
    rcases htopo with h | h <;> rw [h] at hx <;> simp at hx
  · intro x hx
    rcases htopo with h | h <;> rw [h] at hx <;> simp at hx
  · intro modules baseDir x hx
    rcases htopo with h | h
    · simp only [runGraphNodes, h] at hx
      obtain ⟨iherr, -⟩ := runNodes_spec modules baseDir res []
        (by simpa using hord) (by simpa using hrnd)
      rcases iherr _ hx with ⟨p, hp⟩ | ⟨i, hi⟩
      · exact absurd hp (by simp)
      · exact absurd hi (by simp)
    · simp only [runGraphNodes, h] at hx
      exact absurd hx (by simp)

/-- Witness for C10: the duplicate-dependency graph (`b` listing `a` twice)
triggers none of the defensive faults. -/
theorem internal_faults_unreachable_witness :
    ((dupDepNodes.map NodeSpec.id).Nodup ∧
      (∀ n ∈ dupDepNodes, ∀ d ∈ n.dependsOn, d ∈ dupDepNodes.map NodeSpec.id)) ∧
    ((∀ x, topoSort dupDepNodes ≠ .error (.sortMissingNode x)) ∧
      (∀ x, topoSort dupDepNodes ≠ .error (.negativeIndegree x)) ∧
      (∀ (modules : ModuleEnv) (baseDir : String) (x : String),
        runGraphNodes modules baseDir dupDepNodes ≠
          .error (.missingUpstreamState x))) :=
  ⟨⟨by decide, by decide⟩, internal_faults_unreachable (by decide) (by decide)⟩
